import Mathlib

/-!
Verification development for the rx agent kernel.

This file gives a shallow embedding, in Lean 4, of the parts of the rx
source that the specification talks about: the JSON value model, the
filesystem-tool precondition machinery, the replace_in_file scanner, the
apply_patch hunk engine, the bounded subprocess stream reader, the bash
tools, and the iteration kernel loop.  Each definition is translated from
the corresponding Rust function; definitions whose name matches a Rust
symbol are direct translations of that symbol.
-/

/-- JSON values, mirroring serde_json::Value.  Numbers are modelled as
integers (the code under study only reads integer fields); objects keep
their fields as an association list in insertion order. -/
inductive JValue where
  | null : JValue
  | bool : Bool → JValue
  | num : Int → JValue
  | str : String → JValue
  | arr : List JValue → JValue
  | obj : List (String × JValue) → JValue

/-- Field lookup on a JSON object, mirroring Value::get(key): returns the
value bound to the first occurrence of the key, none on non-objects. -/
def JValue.getField : JValue → String → Option JValue
  | .obj fields, key => fields.lookup key
  | _, _ => none

/-- Value::as_str: some s on strings, none otherwise. -/
def JValue.asStr : JValue → Option String
  | .str s => some s
  | _ => none

/-- Value::as_i64: some n on numbers, none otherwise. -/
def JValue.asInt : JValue → Option Int
  | .num n => some n
  | _ => none

/-- Value::as_u64: some n on non-negative numbers, none otherwise. -/
def JValue.asNat : JValue → Option Nat
  | .num n => if 0 ≤ n then some n.toNat else none
  | _ => none

/-! ## String scanning helpers (modelled at the character-list level)

File contents are modelled as lists of characters.  `findSub` mirrors
str::find(pattern) (index of the leftmost occurrence), `countMatches`
mirrors str::matches(pattern).count() (non-overlapping, left to right,
and one match per character boundary for the empty pattern), and
`containsSub` mirrors str::contains. -/

/-- Boolean prefix test on character lists. -/
def isPrefixList : List Char → List Char → Bool
  | [], _ => true
  | _ :: _, [] => false
  | a :: as, b :: bs => a == b && isPrefixList as bs

/-- str::find(pat): index of the leftmost occurrence of pat, if any. -/
def findSub : List Char → List Char → Option Nat
  | hay, pat =>
    if isPrefixList pat hay then some 0
    else
      match hay with
      | [] => none
      | _ :: t => (findSub t pat).map (· + 1)

/-- str::contains(pat). -/
def containsSub (hay pat : List Char) : Bool :=
  (findSub hay pat).isSome

/-- Auxiliary recursion for `countMatches` on a non-empty pattern: count
non-overlapping occurrences scanning left to right. -/
def countMatchesPos (hay : List Char) (c : Char) (cs : List Char) : Nat :=
  match h : findSub hay (c :: cs) with
  | none => 0
  | some i => 1 + countMatchesPos (hay.drop (i + (c :: cs).length)) c cs
termination_by hay.length
decreasing_by
  cases hay with
  | nil => simp [findSub, isPrefixList] at h
  | cons a t => simp only [List.length_drop, List.length_cons]; omega

/-- str::matches(pat).count(): for an empty pattern this is the number of
character boundaries (length + 1), otherwise the number of
non-overlapping occurrences scanning left to right. -/
def countMatches (hay pat : List Char) : Nat :=
  match pat with
  | [] => hay.length + 1
  | c :: cs => countMatchesPos hay c cs

/-- Direct translation of fs.rs replace_n: repeatedly find the leftmost
occurrence of `from`, emit the text before it followed by `to`, and
continue after the match, at most `remaining` times; the tail is kept
verbatim. -/
def replace_n (source pat rep : List Char) : Nat → List Char
  | 0 => source
  | r + 1 =>
    match findSub source pat with
    | some i => source.take i ++ rep ++ replace_n (source.drop (i + pat.length)) pat rep r
    | none => source

/-- Greedy decomposition of `hay` at the non-overlapping left-to-right
occurrences of a non-empty pattern: the list of segments between the
matches (n occurrences yield n + 1 segments). -/
def splitSub (hay : List Char) (c : Char) (cs : List Char) : List (List Char) :=
  match h : findSub hay (c :: cs) with
  | none => [hay]
  | some i => hay.take i :: splitSub (hay.drop (i + (c :: cs).length)) c cs
termination_by hay.length
decreasing_by
  cases hay with
  | nil => simp [findSub, isPrefixList] at h
  | cons a t => simp only [List.length_drop, List.length_cons]; omega

/-! ## File metadata snapshots and mutation preconditions (fs.rs) -/

/-- fs.rs FileMetadata: the snapshot of a file that preconditions are
compared against; an absent file has all fields absent. -/
structure FileMetadata where
  hash : Option String
  mtime_unix_ms : Option Int
  size_bytes : Option Nat
deriving DecidableEq

/-- FileMetadata::to_map: the JSON object fields for the present
snapshot components. -/
def FileMetadata.to_map (m : FileMetadata) : List (String × JValue) :=
  (match m.hash with
    | some h => [("hash", JValue.str h)]
    | none => []) ++
  (match m.mtime_unix_ms with
    | some t => [("mtime_unix_ms", JValue.num t)]
    | none => []) ++
  (match m.size_bytes with
    | some s => [("size_bytes", JValue.num s)]
    | none => [])

/-- fs.rs Precondition: the optional expected-snapshot fields supplied by
a mutation tool invocation. -/
structure Precondition where
  expected_hash : Option String
  expected_mtime_unix_ms : Option Int
  expected_size_bytes : Option Nat

/-- Precondition::try_from: read the three optional fields from a JSON
value (a field of the wrong type reads as absent, as with as_str /
as_i64 / as_u64). -/
def precondition_try_from (v : JValue) : Precondition :=
  { expected_hash := (v.getField "expected_hash").bind JValue.asStr
    expected_mtime_unix_ms := (v.getField "expected_mtime_unix_ms").bind JValue.asInt
    expected_size_bytes := (v.getField "expected_size_bytes").bind JValue.asNat }

/-- The `expected` object reported in a precondition conflict: the
supplied fields of the precondition. -/
def Precondition.expectedMap (p : Precondition) : List (String × JValue) :=
  (match p.expected_hash with
    | some h => [("hash", JValue.str h)]
    | none => []) ++
  (match p.expected_mtime_unix_ms with
    | some t => [("mtime_unix_ms", JValue.num t)]
    | none => []) ++
  (match p.expected_size_bytes with
    | some s => [("size_bytes", JValue.num s)]
    | none => [])

/-- Precondition::evaluate: compare each supplied field against the
current snapshot; on any mismatch return the structured
precondition_failed conflict value, otherwise none. -/
def Precondition.evaluate (p : Precondition) (path : String) (actual : FileMetadata) : Option JValue :=
  let mismatch : Bool :=
    (match p.expected_hash with
      | some eh => decide (actual.hash ≠ some eh)
      | none => false) ||
    (match p.expected_mtime_unix_ms with
      | some et => decide (actual.mtime_unix_ms ≠ some et)
      | none => false) ||
    (match p.expected_size_bytes with
      | some es => decide (actual.size_bytes ≠ some es)
      | none => false)
  if mismatch then
    some (JValue.obj
      [("success", JValue.bool false),
       ("error", JValue.str "precondition_failed"),
       ("path", JValue.str path),
       ("expected", JValue.obj p.expectedMap),
       ("actual", JValue.obj actual.to_map)])
  else
    none

/-- fs.rs apply_precondition: preconditions are read only from the nested
"precondition" object of the tool input; absent that key, no check is
performed. -/
def apply_precondition (input : JValue) (path : String) (actual : FileMetadata) : Option JValue :=
  match input.getField "precondition" with
  | some pv => (precondition_try_from pv).evaluate path actual
  | none => none

/-- The property the specification states about a precondition: every
supplied field equals the corresponding current-snapshot field. -/
def preconditionHolds (p : Precondition) (m : FileMetadata) : Prop :=
  (∀ eh, p.expected_hash = some eh → m.hash = some eh) ∧
  (∀ et, p.expected_mtime_unix_ms = some et → m.mtime_unix_ms = some et) ∧
  (∀ es, p.expected_size_bytes = some es → m.size_bytes = some es)

instance (p : Precondition) (m : FileMetadata) : Decidable (preconditionHolds p m) := by
  unfold preconditionHolds; infer_instance

/-- A filesystem write effect performed by a mutation tool. -/
inductive FsEffect where
  | atomicWrite (path : String) (data : String)
  | appendWrite (path : String) (data : String)
deriving DecidableEq

/-- WriteFileTool::execute, modelled over the current snapshot of the
target file: parse path/content/mode, evaluate the precondition (a
conflict is returned with no write), then record the append or atomic
write together with the success value. -/
def write_file_execute (input : JValue) (snapshot : FileMetadata) :
    Except String (JValue × List FsEffect) :=
  match (input.getField "path").bind JValue.asStr with
  | none => .error "path parameter is required"
  | some path =>
    match (input.getField "content").bind JValue.asStr with
    | none => .error "content parameter is required"
    | some content =>
      let mode := ((input.getField "mode").bind JValue.asStr).getD "overwrite"
      match apply_precondition input path snapshot with
      | some conflict => .ok (conflict, [])
      | none =>
        if mode = "append" then
          .ok (JValue.obj [("path", JValue.str path), ("mode", JValue.str mode)],
               [FsEffect.appendWrite path content])
        else
          .ok (JValue.obj [("path", JValue.str path), ("mode", JValue.str mode)],
               [FsEffect.atomicWrite path content])

/-- WriteFileTool::parameters: the published JSON schema of write_file.
Note the precondition fields are declared as top-level properties. -/
def write_file_parameters : JValue :=
  JValue.obj
    [("type", JValue.str "object"),
     ("description", JValue.str "Write file content, optionally guarded by file-state preconditions."),
     ("properties", JValue.obj
       [("path", JValue.obj
          [("type", JValue.str "string"),
           ("description", JValue.str "Target file path.")]),
        ("content", JValue.obj
          [("type", JValue.str "string"),
           ("description", JValue.str "Content to write.")]),
        ("mode", JValue.obj
          [("type", JValue.str "string"),
           ("enum", JValue.arr [JValue.str "overwrite", JValue.str "append"]),
           ("description", JValue.str "Write mode. Defaults to `overwrite`.")]),
        ("expected_hash", JValue.obj
          [("type", JValue.str "string"),
           ("description", JValue.str "Optional optimistic-concurrency guard. Write proceeds only if current hash matches.")]),
        ("expected_mtime_unix_ms", JValue.obj
          [("type", JValue.str "integer"),
           ("description", JValue.str "Optional mtime precondition in Unix milliseconds.")]),
        ("expected_size_bytes", JValue.obj
          [("type", JValue.str "integer"),
           ("minimum", JValue.num 0),
           ("description", JValue.str "Optional size precondition in bytes.")])]),
     ("required", JValue.arr [JValue.str "path", JValue.str "content"]),
     ("examples", JValue.arr
       [JValue.obj
          [("path", JValue.str "notes/todo.txt"),
           ("content", JValue.str "- finish evals\n"),
           ("mode", JValue.str "append")],
        JValue.obj
          [("path", JValue.str "src/lib.rs"),
           ("content", JValue.str "pub fn answer() -> u32 \x7b 42 \x7d\n"),
           ("mode", JValue.str "overwrite")],
        JValue.obj
          [("path", JValue.str "README.md"),
           ("content", JValue.str "# rx\n"),
           ("expected_hash", JValue.str "3f1f4f6dbe8d....")]])]

/-! ## replace_in_file (fs.rs ReplaceInFileTool) -/

/-- The observable outcome of ReplaceInFileTool::execute on an existing
readable file whose precondition (if any) already passed: either the
unexpected_match_count refusal (no write) or the atomic write of the
replaced content. -/
inductive ReplaceResult where
  | mismatch (expected actualMatches : Nat)
  | write (newContent : List Char)
deriving DecidableEq

/-- ReplaceInFileTool::execute, modelled on the file contents: count the
occurrences of old_text; refuse when the count differs from
expected_matches, otherwise write the first expected_matches occurrences
replaced. -/
def replace_in_file_execute (contents old_text new_text : List Char)
    (expected_matches : Nat) : ReplaceResult :=
  let found := countMatches contents old_text
  if found ≠ expected_matches then
    ReplaceResult.mismatch expected_matches found
  else
    ReplaceResult.write (replace_n contents old_text new_text expected_matches)

/-- The expected_matches argument parse: optional, defaulting to 1. -/
def parse_expected_matches (input : JValue) : Nat :=
  ((input.getField "expected_matches").bind JValue.asNat).getD 1

/-! ## The apply_patch hunk engine (fs.rs)

Files are split into lines the way the Rust code does
(`original.lines()` plus a strip of a trailing carriage return); a line
is a list of characters. -/

/-- Vec::join(sep): interleave the separator between the pieces. -/
def joinWith (sep : List Char) : List (List Char) → List Char
  | [] => []
  | [p] => p
  | p :: q :: rest => p ++ sep ++ joinWith sep (q :: rest)

/-- A classified line of a patch hunk (fs.rs ApplyPatchHunkLine). -/
inductive ApplyPatchHunkLine where
  | context (text : List Char)
  | remove (text : List Char)
  | add (text : List Char)
deriving DecidableEq

/-- A patch hunk: an ordered sequence of classified lines. -/
structure ApplyPatchHunk where
  lines : List ApplyPatchHunkLine
deriving DecidableEq

/-- The expected_old window of a hunk: its context and remove lines in
source order. -/
def expectedOldOf (h : ApplyPatchHunk) : List (List Char) :=
  h.lines.filterMap fun l =>
    match l with
    | .context text => some text
    | .remove text => some text
    | .add _ => none

/-- The replacement of a hunk: its context and add lines in source
order. -/
def replacementOf (h : ApplyPatchHunk) : List (List Char) :=
  h.lines.filterMap fun l =>
    match l with
    | .context text => some text
    | .add text => some text
    | .remove _ => none

/-- The window comparison of find_hunk_match: the slice of `lines` of
the length of `expected` starting at `idx` equals `expected`. -/
def windowAt (lines expected : List (List Char)) (idx : Nat) : Bool :=
  decide ((lines.drop idx).take expected.length = expected)

/-- The scanning loop of find_hunk_match: try `count` successive indices
from `idx`, returning the first whose window matches. -/
def fhmGo (lines expected : List (List Char)) : Nat → Nat → Option Nat
  | _, 0 => none
  | idx, c + 1 =>
    if windowAt lines expected idx then some idx
    else fhmGo lines expected (idx + 1) c

/-- Direct translation of fs.rs find_hunk_match: an empty window matches
at the cursor (clamped to the line count); a window longer than the file
or a cursor beyond the file never matches; otherwise scan indices start
..= lines.len() - expected.len(). -/
def find_hunk_match (lines expected : List (List Char)) (start : Nat) : Option Nat :=
  if expected.isEmpty then some (min start lines.length)
  else if expected.length > lines.length || start > lines.length then none
  else fhmGo lines expected start (lines.length - expected.length + 1 - start)

/-- The specification's description of the same search: the least index
at or after `start` whose window equals `expected` (an empty window
matches at the clamped cursor). -/
def findHunkMatchSpec (lines expected : List (List Char)) (start : Nat) : Option Nat :=
  if expected.isEmpty then some (min start lines.length)
  else (List.range (lines.length + 1)).find? fun i =>
    decide (start ≤ i) && windowAt lines expected i

/-- The per-hunk loop of fs.rs apply_patch_hunks: locate expected_old
searching from the cursor and falling back to a search from 0, fail if
still absent, splice the replacement over the matched window, and move
the cursor to the end of the replacement. -/
def applyHunksGo (lines : List (List Char)) (cursor : Nat) :
    List ApplyPatchHunk → Option (List (List Char))
  | [] => some lines
  | h :: rest =>
    let expected_old := expectedOldOf h
    let replacement := replacementOf h
    match (find_hunk_match lines expected_old cursor).orElse
        (fun _ => find_hunk_match lines expected_old 0) with
    | none => none
    | some match_pos =>
      applyHunksGo
        (lines.take match_pos ++ replacement ++ lines.drop (match_pos + expected_old.length))
        (match_pos + replacement.length) rest

/-- Whether a character list ends with a line feed (str::ends_with of a
newline). -/
def endsLF (s : List Char) : Bool :=
  s.getLast? == some '\n'

/-- Drop one trailing carriage return, as the Rust per-line
strip_suffix of a carriage return does. -/
def stripCR (l : List Char) : List Char :=
  if l.getLast? == some '\r' then l.dropLast else l

/-- str::lines(): split at line feeds, drop the final empty piece
produced by a trailing line feed, and strip one trailing carriage
return per line (the empty string has no lines). -/
def rustLines (s : List Char) : List (List Char) :=
  if s.isEmpty then []
  else
    let parts := s.splitOn '\n'
    let parts := if endsLF s then parts.dropLast else parts
    parts.map stripCR

/-- Direct translation of fs.rs apply_patch_hunks: split the original
into lines, thread the hunks through applyHunksGo with the cursor
starting at 0, join with line feeds, and append a final line feed
exactly when the original ended with one. -/
def apply_patch_hunks (original : List Char) (hunks : List ApplyPatchHunk) :
    Option (List Char) :=
  (applyHunksGo (rustLines original) 0 hunks).map fun ls =>
    let output := joinWith ['\n'] ls
    if endsLF original then output ++ ['\n'] else output

/-- The specification's description of apply_patch_hunks, identical but
for locating each window with the least-index search
findHunkMatchSpec. -/
def applyHunksGoSpec (lines : List (List Char)) (cursor : Nat) :
    List ApplyPatchHunk → Option (List (List Char))
  | [] => some lines
  | h :: rest =>
    let expected_old := expectedOldOf h
    let replacement := replacementOf h
    match (findHunkMatchSpec lines expected_old cursor).orElse
        (fun _ => findHunkMatchSpec lines expected_old 0) with
    | none => none
    | some match_pos =>
      applyHunksGoSpec
        (lines.take match_pos ++ replacement ++ lines.drop (match_pos + expected_old.length))
        (match_pos + replacement.length) rest

/-- apply_patch_hunks as the specification words it (with the amended
trailing-newline rule: a line feed is appended to the joined patched
lines exactly when the original ended with one). -/
def applyPatchHunksSpec (original : List Char) (hunks : List ApplyPatchHunk) :
    Option (List Char) :=
  (applyHunksGoSpec (rustLines original) 0 hunks).map fun ls =>
    let output := joinWith ['\n'] ls
    if endsLF original then output ++ ['\n'] else output

/-! ## Bounded subprocess stream capture (exec_common.rs) -/

/-- The loop of read_stream_limited: the stream is a sequence of read
results (chunks of bytes); a read of zero bytes ends the stream.  Bytes
are appended to the buffer while it is below max_bytes; a chunk that
does not fit is cut at the cap, and any further byte only sets the
truncated flag. -/
def readLimitedGo (maxBytes : Nat) : List (List Nat) → List Nat → Bool → List Nat × Bool
  | [], buffer, truncated => (buffer, truncated)
  | chunk :: rest, buffer, truncated =>
    if chunk.length = 0 then (buffer, truncated)
    else if buffer.length < maxBytes then
      let remaining := maxBytes - buffer.length
      if chunk.length ≤ remaining then
        readLimitedGo maxBytes rest (buffer ++ chunk) truncated
      else
        readLimitedGo maxBytes rest (buffer ++ chunk.take remaining) true
    else
      readLimitedGo maxBytes rest buffer true

/-- exec_common.rs read_stream_limited over a modelled stream of read
chunks. -/
def read_stream_limited (chunks : List (List Nat)) (maxBytes : Nat) : List Nat × Bool :=
  readLimitedGo maxBytes chunks [] false

/-- The number of bytes the source stream produces: the bytes of every
chunk up to the first empty read (the end of stream). -/
def sourceBytes : List (List Nat) → Nat
  | [] => 0
  | chunk :: rest => if chunk.length = 0 then 0 else chunk.length + sourceBytes rest

/-! ## The bash tools (tools/bash.rs and rx-core/src/main.rs) -/

/-- What a bash tool decides to do with a submitted command: spawn a
child process with a program and arguments, or refuse without
spawning. -/
inductive SpawnDecision where
  | spawn (program : String) (args : List String)
  | denied (command : String)
deriving DecidableEq

/-- tools/bash.rs BashTool::execute up to the spawn: parse the script
argument (an error when absent) and invoke /bin/bash -c on it.  No
filtering of the script occurs. -/
def bash_tool_execute (input : JValue) : Except String SpawnDecision :=
  match (input.getField "script").bind JValue.asStr with
  | none => .error "missing field script"
  | some script => .ok (SpawnDecision.spawn "/bin/bash" ["-c", script])

/-- The static denylist of the rx-core draft bash tool. -/
def rxForbidden : List String :=
  ["rm ", "rm-", "sudo", "chmod", "chown", "chgrp", "mv ", "dd ",
   "mkfs", "mount", "umount", "shutdown", "reboot", "init ", "halt"]

/-- Lower-case a character list (str::to_lowercase on ASCII commands). -/
def toLowerList (l : List Char) : List Char :=
  l.map Char.toLower

/-- rx-core/src/main.rs BashCommand::call up to the spawn: deny the
command when its lower-cased text contains any denylisted fragment,
otherwise invoke bash -lc on it. -/
def rx_core_bash_call (command : String) : SpawnDecision :=
  if rxForbidden.any (fun pat => containsSub (toLowerList command.data) pat.data) then
    SpawnDecision.denied command
  else
    SpawnDecision.spawn "bash" ["-lc", command]

/-! ## The iteration kernel (kernel.rs, main.rs bootstrap)

Events are modelled by their kind tag and JSON payload (the id and
timestamp of an event carry no information the claims use).  The model
and the tool registry are modelled as pure functions; a registry maps a
tool name to an implementation returning either a success value or an
error message, exactly the two shapes Kernel::execute_tool folds into a
JSON output. -/

/-- model.rs ToolCall. -/
structure KToolCall where
  id : String
  name : String
  arguments : JValue

/-- model.rs Action. -/
inductive KAction where
  | message (content : String)
  | toolCall (tc : KToolCall)

/-- An event as journaled: kind tag plus JSON payload. -/
structure KEvent where
  kind : String
  payload : JValue

/-- The serde serialization of an Action used as the action event
payload (externally tagged enum). -/
def actionPayload : KAction → JValue
  | .message content => JValue.obj [("Message", JValue.str content)]
  | .toolCall tc => JValue.obj
      [("ToolCall", JValue.obj
        [("id", JValue.str tc.id),
         ("name", JValue.str tc.name),
         ("arguments", tc.arguments)])]

/-- Kernel::append_tool_output payload: exactly the fields tool_call_id
and output, in that order. -/
def toolOutputPayload (tc : KToolCall) (output : JValue) : JValue :=
  JValue.obj [("tool_call_id", JValue.str tc.id), ("output", output)]

/-- Kernel::append_termination payload. -/
def terminationPayload (reason : String) (details : JValue) : JValue :=
  JValue.obj [("reason", JValue.str reason), ("details", details)]

/-- The termination event appended when the iteration cap is reached. -/
def termMaxEvent : KEvent :=
  ⟨"termination",
   terminationPayload "max_iterations" (JValue.obj [("reason", JValue.str "max_iterations")])⟩

/-- The termination event appended after the done tool ran. -/
def termDoneEvent (output : JValue) : KEvent :=
  ⟨"termination",
   terminationPayload "done"
     (JValue.obj [("reason", JValue.str "done"), ("details", output)])⟩

/-- A registry: a name-keyed map to tool implementations. -/
def ToolReg : Type := String → Option (JValue → Except String JValue)

/-- Kernel::execute_tool: run the registered tool, folding an execution
error into an error object, and a missing tool into a not-found error
object. -/
def execute_tool (reg : ToolReg) (tc : KToolCall) : JValue :=
  match reg tc.name with
  | some tool =>
    match tool tc.arguments with
    | .ok output => output
    | .error e => JValue.obj [("error", JValue.str e)]
  | none => JValue.obj [("error", JValue.str ("Tool " ++ tc.name ++ " not found"))]

/-- A primitive step of the kernel loop, in execution order: an event
append to the state store, or a tool execution. -/
inductive KStep where
  | append (e : KEvent)
  | execTool (tc : KToolCall)

/-- One run of Kernel::run as the ordered sequence of its primitive
steps.  `remaining` counts the iterations left before the cap
(max_iterations - iteration); the event log grows exactly as the state
store sees it, so the model decides each action from the loaded
history. -/
def kernelTrace (model : List KEvent → KAction) (reg : ToolReg) :
    Nat → List KEvent → List KStep
  | 0, _ => [KStep.append termMaxEvent]
  | r + 1, log =>
    match model log with
    | .message content =>
      let e : KEvent := ⟨"action", actionPayload (.message content)⟩
      KStep.append e :: kernelTrace model reg r (log ++ [e])
    | .toolCall tc =>
      let a : KEvent := ⟨"action", actionPayload (.toolCall tc)⟩
      let output := execute_tool reg tc
      let o : KEvent := ⟨"tool_output", toolOutputPayload tc output⟩
      KStep.append a :: KStep.execTool tc :: KStep.append o ::
        (if tc.name = "done" then [KStep.append (termDoneEvent output)]
         else kernelTrace model reg r (log ++ [a, o]))

/-- The events a trace appends, in order. -/
def appendedEvents (trace : List KStep) : List KEvent :=
  trace.filterMap fun s =>
    match s with
    | .append e => some e
    | .execTool _ => none

/-- The state store contents after a completed Kernel::run with
max_iterations = maxIter, starting from the given log. -/
def kernelRun (model : List KEvent → KAction) (reg : ToolReg)
    (maxIter : Nat) (log : List KEvent) : List KEvent :=
  log ++ appendedEvents (kernelTrace model reg maxIter log)

/-- The goal event the bootstrap appends when a new goal is created
(main.rs). -/
def goalEvent (goal : String) : KEvent :=
  ⟨"goal", JValue.obj [("goal", JValue.str goal)]⟩

/-- Whether a step appends an event of the given kind. -/
def appendsKind (kind : String) : KStep → Bool
  | .append e => e.kind == kind
  | .execTool _ => false

/-! ## Lemmas about the string scanners -/

theorem isPrefixList_iff : ∀ (p h : List Char), isPrefixList p h = true ↔ ∃ s, h = p ++ s := by
  intro p
  induction p with
  | nil => intro h; simp [isPrefixList]
  | cons a as ih =>
    intro h
    cases h with
    | nil => simp [isPrefixList]
    | cons b bs =>
      simp only [isPrefixList, Bool.and_eq_true, beq_iff_eq, ih bs, List.cons_append]
      constructor
      · rintro ⟨rfl, s, rfl⟩
        exact ⟨s, rfl⟩
      · rintro ⟨s, hs⟩
        cases hs
        exact ⟨rfl, s, rfl⟩

theorem findSub_nil_pat (hay : List Char) : findSub hay [] = some 0 := by
  cases hay <;> simp [findSub, isPrefixList]

theorem findSub_matches : ∀ (hay pat : List Char) (i : Nat),
    findSub hay pat = some i → isPrefixList pat (hay.drop i) = true := by
  intro hay
  induction hay with
  | nil =>
    intro pat i h
    rw [findSub] at h
    split at h
    · cases h; simpa using by assumption
    · simp at h
  | cons a t ih =>
    intro pat i h
    rw [findSub] at h
    split at h
    · cases h; simpa using by assumption
    · simp only [Option.map_eq_some'] at h
      obtain ⟨j, hj, rfl⟩ := h
      simpa [List.drop_succ_cons] using ih pat j hj

theorem findSub_least : ∀ (hay pat : List Char) (i : Nat),
    findSub hay pat = some i → ∀ j, j < i → isPrefixList pat (hay.drop j) = false := by
  intro hay
  induction hay with
  | nil =>
    intro pat i h j hj
    rw [findSub] at h
    split at h
    · cases h; omega
    · simp at h
  | cons a t ih =>
    intro pat i h j hj
    rw [findSub] at h
    split at h
    · cases h; omega
    · simp only [Option.map_eq_some'] at h
      obtain ⟨k, hk, rfl⟩ := h
      rename_i hcond
      cases j with
      | zero =>
        simpa using hcond
      | succ j =>
        simpa [List.drop_succ_cons] using ih pat k hk j (by omega)

theorem findSub_none_all : ∀ (hay pat : List Char),
    findSub hay pat = none → ∀ j, isPrefixList pat (hay.drop j) = false := by
  intro hay
  induction hay with
  | nil =>
    intro pat h j
    rw [findSub] at h
    split at h
    · simp at h
    · rename_i hcond
      have hdn : ([] : List Char).drop j = [] := by simp
      rw [hdn]
      simpa using hcond
  | cons a t ih =>
    intro pat h j
    rw [findSub] at h
    split at h
    · simp at h
    · rename_i hcond
      simp only [Option.map_eq_none'] at h
      cases j with
      | zero => simpa using hcond
      | succ j => simpa [List.drop_succ_cons] using ih pat h j

theorem findSub_bound (hay pat : List Char) (i : Nat)
    (h : findSub hay pat = some i) : i + pat.length ≤ hay.length := by
  cases pat with
  | nil =>
    rw [findSub_nil_pat] at h
    cases h; simp
  | cons c cs =>
    have hm := findSub_matches hay (c :: cs) i h
    rw [isPrefixList_iff] at hm
    obtain ⟨s, hs⟩ := hm
    have h3 := congrArg List.length hs
    simp only [List.length_drop, List.length_append, List.length_cons] at h3 ⊢
    by_cases hi : i ≤ hay.length
    · omega
    · exfalso
      have hnil : hay.drop i = [] := List.drop_eq_nil_of_le (by omega)
      rw [hnil] at hs
      simp at hs

theorem findSub_decomp (hay pat : List Char) (i : Nat)
    (h : findSub hay pat = some i) :
    hay = hay.take i ++ pat ++ hay.drop (i + pat.length) := by
  have hm := findSub_matches hay pat i h
  rw [isPrefixList_iff] at hm
  obtain ⟨s, hs⟩ := hm
  have hsv : s = hay.drop (i + pat.length) := by
    have h2 : (hay.drop i).drop pat.length = s := by
      rw [hs, List.drop_left]
    rw [List.drop_drop] at h2
    exact h2.symm
  calc hay = hay.take i ++ hay.drop i := (List.take_append_drop i hay).symm
    _ = hay.take i ++ (pat ++ s) := by rw [hs]
    _ = hay.take i ++ pat ++ hay.drop (i + pat.length) := by rw [hsv, List.append_assoc]

theorem splitSub_eq_none (hay : List Char) (c : Char) (cs : List Char)
    (h : findSub hay (c :: cs) = none) : splitSub hay c cs = [hay] := by
  rw [splitSub]
  split
  · rfl
  · rename_i i hi
    rw [h] at hi
    cases hi

theorem splitSub_eq_some (hay : List Char) (c : Char) (cs : List Char) (i : Nat)
    (h : findSub hay (c :: cs) = some i) :
    splitSub hay c cs = hay.take i :: splitSub (hay.drop (i + (c :: cs).length)) c cs := by
  rw [splitSub]
  split
  · rename_i hn
    rw [h] at hn
    cases hn
  · rename_i j hj
    rw [h] at hj
    cases hj
    rfl

theorem splitSub_ne_nil (hay : List Char) (c : Char) (cs : List Char) :
    splitSub hay c cs ≠ [] := by
  cases h : findSub hay (c :: cs) with
  | none => rw [splitSub_eq_none hay c cs h]; simp
  | some i => rw [splitSub_eq_some hay c cs i h]; simp

theorem countMatchesPos_eq_none (hay : List Char) (c : Char) (cs : List Char)
    (h : findSub hay (c :: cs) = none) : countMatchesPos hay c cs = 0 := by
  rw [countMatchesPos]
  split
  · rfl
  · rename_i i hi
    rw [h] at hi
    cases hi

theorem countMatchesPos_eq_some (hay : List Char) (c : Char) (cs : List Char) (i : Nat)
    (h : findSub hay (c :: cs) = some i) :
    countMatchesPos hay c cs = 1 + countMatchesPos (hay.drop (i + (c :: cs).length)) c cs := by
  rw [countMatchesPos]
  split
  · rename_i hn
    rw [h] at hn
    cases hn
  · rename_i j hj
    rw [h] at hj
    cases hj
    rfl

theorem joinWith_cons (sep p : List Char) (q : List Char) (rest : List (List Char)) :
    joinWith sep (p :: q :: rest) = p ++ sep ++ joinWith sep (q :: rest) := rfl

/-- Reassembling the greedy decomposition with the pattern itself
restores the original text. -/
theorem splitSub_join (c : Char) (cs : List Char) :
    ∀ (n : Nat) (hay : List Char), hay.length ≤ n →
      joinWith (c :: cs) (splitSub hay c cs) = hay := by
  intro n
  induction n with
  | zero =>
    intro hay hlen
    have hhay : hay = [] := by
      cases hay with
      | nil => rfl
      | cons a t => simp at hlen
    subst hhay
    have hf : findSub [] (c :: cs) = none := by simp [findSub, isPrefixList]
    rw [splitSub_eq_none _ _ _ hf]
    rfl
  | succ n ih =>
    intro hay hlen
    cases hfs : findSub hay (c :: cs) with
    | none =>
      rw [splitSub_eq_none _ _ _ hfs]
      rfl
    | some i =>
      rw [splitSub_eq_some _ _ _ i hfs]
      have hb := findSub_bound hay (c :: cs) i hfs
      have hrec := ih (hay.drop (i + (c :: cs).length))
        (by simp only [List.length_drop, List.length_cons] at *; omega)
      cases hq : splitSub (hay.drop (i + (c :: cs).length)) c cs with
      | nil => exact absurd hq (splitSub_ne_nil _ _ _)
      | cons q rest =>
        rw [joinWith_cons]
        rw [← hq, hrec]
        exact (findSub_decomp hay (c :: cs) i hfs).symm

/-- The greedy decomposition has one more segment than there are
occurrences. -/
theorem splitSub_length (c : Char) (cs : List Char) :
    ∀ (n : Nat) (hay : List Char), hay.length ≤ n →
      (splitSub hay c cs).length = countMatchesPos hay c cs + 1 := by
  intro n
  induction n with
  | zero =>
    intro hay hlen
    have hhay : hay = [] := by
      cases hay with
      | nil => rfl
      | cons a t => simp at hlen
    subst hhay
    have hf : findSub [] (c :: cs) = none := by simp [findSub, isPrefixList]
    rw [splitSub_eq_none _ _ _ hf, countMatchesPos_eq_none _ _ _ hf]
    rfl
  | succ n ih =>
    intro hay hlen
    cases hfs : findSub hay (c :: cs) with
    | none =>
      rw [splitSub_eq_none _ _ _ hfs, countMatchesPos_eq_none _ _ _ hfs]
      rfl
    | some i =>
      rw [splitSub_eq_some _ _ _ i hfs, countMatchesPos_eq_some _ _ _ i hfs]
      have hb := findSub_bound hay (c :: cs) i hfs
      have hrec := ih (hay.drop (i + (c :: cs).length))
        (by simp only [List.length_drop, List.length_cons] at *; omega)
      rw [List.length_cons, hrec]
      omega

/-- When the remaining-replacement budget equals the occurrence count,
replace_n substitutes the replacement for the pattern at every segment
boundary of the greedy decomposition. -/
theorem replace_n_join (c : Char) (cs rep : List Char) :
    ∀ (m : Nat) (hay : List Char), countMatchesPos hay c cs = m →
      replace_n hay (c :: cs) rep m = joinWith rep (splitSub hay c cs) := by
  intro m
  induction m with
  | zero =>
    intro hay hcount
    cases hfs : findSub hay (c :: cs) with
    | none =>
      rw [splitSub_eq_none _ _ _ hfs]
      rfl
    | some i =>
      rw [countMatchesPos_eq_some _ _ _ i hfs] at hcount
      omega
  | succ m ih =>
    intro hay hcount
    cases hfs : findSub hay (c :: cs) with
    | none =>
      rw [countMatchesPos_eq_none _ _ _ hfs] at hcount
      omega
    | some i =>
      rw [countMatchesPos_eq_some _ _ _ i hfs] at hcount
      have hcount2 : countMatchesPos (hay.drop (i + (c :: cs).length)) c cs = m := by omega
      rw [splitSub_eq_some _ _ _ i hfs]
      cases hq : splitSub (hay.drop (i + (c :: cs).length)) c cs with
      | nil => exact absurd hq (splitSub_ne_nil _ _ _)
      | cons q rest =>
        rw [joinWith_cons, ← hq, ← ih _ hcount2]
        show replace_n hay (c :: cs) rep (m + 1) = _
        rw [replace_n, hfs]

/-- replace_n with an empty pattern inserts the replacement `remaining`
times at the start of the text. -/
theorem replace_n_empty_pat (rep : List Char) :
    ∀ (m : Nat) (hay : List Char),
      replace_n hay [] rep m = (List.replicate m rep).flatten ++ hay := by
  intro m
  induction m with
  | zero => intro hay; rfl
  | succ m ih =>
    intro hay
    rw [replace_n, findSub_nil_pat]
    simp [ih hay, List.replicate_succ, List.append_assoc]

/-- C5 counterexample: the claim fails for an empty old_text.  On the
file "ab" the occurrence count of the empty pattern is 3 (one per
character boundary, the same count the guard compares against), and the
file decomposes at those occurrences into the segments
[[], [a], [b], []]; replacing the counted occurrences left to right
would produce "XaXbX", but the code writes "XXXab": all three copies of
new_text are inserted at the start of the file. -/
theorem C5_counterexample :
    countMatches "ab".data [] = 3 ∧
    replace_in_file_execute "ab".data [] "X".data 3 =
      ReplaceResult.write "XXXab".data ∧
    joinWith [] [[], "a".data, "b".data, []] = "ab".data ∧
    joinWith "X".data [[], "a".data, "b".data, []] = "XaXbX".data ∧
    "XXXab".data ≠ "XaXbX".data := by
  refine ⟨by decide, ?_, by decide, by decide, by decide⟩
  decide

/-- C5 (amended): replace_in_file on an existing readable file returns
the unexpected_match_count error carrying the actual count and leaves
the content unchanged when the occurrence count of old_text differs
from expected_matches; when the count equals expected_matches and
old_text is non-empty, exactly the occurrences of old_text (all of
them, scanning left to right — the count equals expected_matches) are
replaced by new_text: the file splits into count + 1 segments
interleaved with old_text and the written result interleaves the same
segments with new_text.  When old_text is empty, expected_matches
copies of new_text are instead inserted at the start of the file.  The
expected_matches argument defaults to 1 when absent. -/
theorem C5_replace_guard_and_substitution
    (contents old_text new_text : List Char) (em : Nat) :
    (countMatches contents old_text ≠ em →
      replace_in_file_execute contents old_text new_text em =
        ReplaceResult.mismatch em (countMatches contents old_text)) ∧
    (countMatches contents old_text = em →
      ∀ c cs, old_text = c :: cs →
        replace_in_file_execute contents old_text new_text em =
          ReplaceResult.write (joinWith new_text (splitSub contents c cs)) ∧
        joinWith old_text (splitSub contents c cs) = contents ∧
        (splitSub contents c cs).length = em + 1) ∧
    (countMatches contents old_text = em → old_text = [] →
      replace_in_file_execute contents old_text new_text em =
        ReplaceResult.write ((List.replicate em new_text).flatten ++ contents)) ∧
    (∀ input : JValue, input.getField "expected_matches" = none →
      parse_expected_matches input = 1) := by
  refine ⟨?_, ?_, ?_, ?_⟩
  · intro hne
    simp [replace_in_file_execute, hne]
  · intro heq c cs hold
    subst hold
    have hcount : countMatchesPos contents c cs = em := heq
    refine ⟨?_, ?_, ?_⟩
    · simp only [replace_in_file_execute, heq]
      simp only [ne_eq, not_true_eq_false, if_false, ite_false]
      rw [replace_n_join c cs new_text em contents hcount]
    · exact splitSub_join c cs contents.length contents le_rfl
    · rw [splitSub_length c cs contents.length contents le_rfl, hcount]
  · intro heq hold
    subst hold
    simp only [replace_in_file_execute, heq]
    simp only [ne_eq, not_true_eq_false, if_false, ite_false]
    rw [replace_n_empty_pat new_text em contents]
  · intro input h
    simp [parse_expected_matches, h]

/-- C5 witness: the guard and the substitution at concrete inputs from
the specification scenario (file "foo foo"). -/
theorem C5_replace_witness :
    replace_in_file_execute "foo foo".data "foo".data "bar".data 1 =
      ReplaceResult.mismatch 1 2 ∧
    replace_in_file_execute "foo foo".data "foo".data "bar".data 2 =
      ReplaceResult.write "bar bar".data := by
  have hcount : countMatches "foo foo".data "foo".data = 2 := by
    simp [countMatches, countMatchesPos, findSub, isPrefixList]
  constructor
  · have h := (C5_replace_guard_and_substitution "foo foo".data "foo".data "bar".data 1).1
      (by rw [hcount]; omega)
    rw [h, hcount]
  · have h := ((C5_replace_guard_and_substitution "foo foo".data "foo".data "bar".data 2).2.1
      hcount 'f' "oo".data rfl).1
    rw [h]
    have hsplit : splitSub "foo foo".data 'f' "oo".data = [[], " ".data, []] := by
      simp [splitSub, findSub, isPrefixList]
    rw [hsplit]
    rfl

/-! ## Lemmas about the hunk window search -/

theorem windowAt_fits (lines expected : List (List Char)) (i : Nat)
    (h : windowAt lines expected i = true) (hne : expected ≠ []) :
    i + expected.length ≤ lines.length := by
  unfold windowAt at h
  rw [decide_eq_true_eq] at h
  have hlen := congrArg List.length h
  simp only [List.length_take, List.length_drop] at hlen
  have hpos : 0 < expected.length := List.length_pos.mpr hne
  omega

theorem fhmGo_some_spec (lines expected : List (List Char)) :
    ∀ (count idx j : Nat), fhmGo lines expected idx count = some j →
      idx ≤ j ∧ j < idx + count ∧ windowAt lines expected j = true ∧
        ∀ k, idx ≤ k → k < j → windowAt lines expected k = false := by
  intro count
  induction count with
  | zero => intro idx j h; simp [fhmGo] at h
  | succ c ih =>
    intro idx j h
    rw [fhmGo] at h
    split at h
    · rename_i hw
      cases h
      exact ⟨le_rfl, by omega, hw, fun k hk1 hk2 => by omega⟩
    · rename_i hw
      obtain ⟨h1, h2, h3, h4⟩ := ih (idx + 1) j h
      refine ⟨by omega, by omega, h3, ?_⟩
      intro k hk1 hk2
      rcases Nat.eq_or_lt_of_le hk1 with heq | hlt
      · subst heq
        simpa using hw
      · exact h4 k (by omega) hk2

theorem fhmGo_none_spec (lines expected : List (List Char)) :
    ∀ (count idx : Nat), fhmGo lines expected idx count = none →
      ∀ k, idx ≤ k → k < idx + count → windowAt lines expected k = false := by
  intro count
  induction count with
  | zero => intro idx h k hk1 hk2; omega
  | succ c ih =>
    intro idx h k hk1 hk2
    rw [fhmGo] at h
    split at h
    · cases h
    · rename_i hw
      rcases Nat.eq_or_lt_of_le hk1 with heq | hlt
      · subst heq
        simpa using hw
      · exact ih (idx + 1) h k (by omega) (by omega)

theorem range_find?_eq_some_iff (n : Nat) (p : Nat → Bool) : ∀ (j : Nat),
    (List.range n).find? p = some j ↔
      j < n ∧ p j = true ∧ ∀ k, k < j → p k = false := by
  induction n with
  | zero => simp
  | succ n ih =>
    intro j
    rw [List.range_succ, List.find?_append]
    cases hfind : (List.range n).find? p with
    | some m =>
      obtain ⟨hm1, hm2, hm3⟩ := (ih m).mp hfind
      have hor : (some m).or ((List.find? p [n])) = some m := rfl
      rw [hor]
      simp only [Option.some.injEq]
      constructor
      · rintro rfl
        exact ⟨by omega, hm2, hm3⟩
      · rintro ⟨hj1, hj2, hj3⟩
        by_contra hne
        rcases Nat.lt_or_ge m j with hlt | hge
        · exact absurd hm2 (by simp [hj3 m hlt])
        · have : m ≠ j := fun hx => hne hx
          have hmj : j < m := by omega
          exact absurd hj2 (by simp [hm3 j hmj])
    | none =>
      have hall : ∀ x, x < n → p x = false := by
        intro x hx
        have := List.find?_eq_none.mp hfind x (List.mem_range.mpr hx)
        simpa using this
      simp only [Option.none_or]
      by_cases hpn : p n = true
      · simp only [List.find?, hpn, Option.some.injEq]
        constructor
        · rintro rfl
          exact ⟨by omega, hpn, fun k hk => hall k hk⟩
        · rintro ⟨hj1, hj2, hj3⟩
          by_contra hne
          have hjn : j < n := by omega
          exact absurd hj2 (by simp [hall j hjn])
      · have hpn' : p n = false := by
          cases hp : p n
          · rfl
          · exact absurd hp hpn
        simp only [List.find?, hpn']
        constructor
        · intro h; cases h
        · rintro ⟨hj1, hj2, hj3⟩
          rcases Nat.lt_or_ge j n with hlt | hge
          · exact absurd hj2 (by simp [hall j hlt])
          · have : j = n := by omega
            subst this
            exact absurd hj2 (by simp [hpn'])

/-- On any cursor within the file, the scanning search of
find_hunk_match returns exactly the least matching index at or after
the cursor, i.e. the search the specification describes. -/
theorem find_hunk_match_eq_spec (lines expected : List (List Char)) (start : Nat)
    (hstart : start ≤ lines.length) :
    find_hunk_match lines expected start = findHunkMatchSpec lines expected start := by
  unfold find_hunk_match findHunkMatchSpec
  by_cases hemp : expected.isEmpty
  · simp [hemp]
  · have hne : expected ≠ [] := by
      cases expected
      · simp at hemp
      · simp
    have hpos : 0 < expected.length := List.length_pos.mpr hne
    rw [if_neg hemp, if_neg hemp]
    by_cases hlen : expected.length > lines.length
    · rw [if_pos (by simp only [Bool.or_eq_true, decide_eq_true_eq]; left; exact hlen)]
      symm
      rw [List.find?_eq_none]
      intro x hx
      simp only [Bool.and_eq_true, decide_eq_true_eq, not_and]
      intro hsx hw
      have := windowAt_fits lines expected x hw hne
      omega
    · rw [if_neg (by simp only [Bool.or_eq_true, decide_eq_true_eq]; omega)]
      cases hgo : fhmGo lines expected start (lines.length - expected.length + 1 - start) with
      | some j =>
        obtain ⟨h1, h2, h3, h4⟩ := fhmGo_some_spec lines expected _ start j hgo
        symm
        rw [range_find?_eq_some_iff]
        refine ⟨?_, ?_, ?_⟩
        · have := windowAt_fits lines expected j h3 hne
          omega
        · simp [h1, h3]
        · intro k hk
          rcases Nat.lt_or_ge k start with hks | hks
          · have hd : decide (start ≤ k) = false := by
              simp only [decide_eq_false_iff_not]
              omega
            simp [hd]
          · simp [h4 k hks hk]
      | none =>
        symm
        rw [List.find?_eq_none]
        intro x hx
        simp only [Bool.and_eq_true, decide_eq_true_eq, not_and]
        intro hsx hw
        have hfits := windowAt_fits lines expected x hw hne
        have := fhmGo_none_spec lines expected _ start hgo x hsx (by omega)
        rw [this] at hw
        cases hw

/-- A successful spec search stays within the file and leaves room for
the window. -/
theorem findHunkMatchSpec_bound (lines expected : List (List Char)) (start pos : Nat)
    (h : findHunkMatchSpec lines expected start = some pos) :
    pos + expected.length ≤ lines.length := by
  unfold findHunkMatchSpec at h
  by_cases hemp : expected.isEmpty
  · rw [if_pos hemp] at h
    cases h
    have hz : expected.length = 0 := by
      cases expected
      · rfl
      · simp at hemp
    simp [hz]
  · have hne : expected ≠ [] := by
      cases expected
      · simp at hemp
      · simp
    rw [if_neg hemp] at h
    rw [range_find?_eq_some_iff] at h
    obtain ⟨h1, h2, h3⟩ := h
    simp only [Bool.and_eq_true, decide_eq_true_eq] at h2
    exact windowAt_fits lines expected pos h2.2 hne

/-- The hunk loop agrees with its specification counterpart whenever the
cursor lies within the file, which the loop preserves: after a splice
the cursor is the end of the replacement, inside the new line
vector. -/
theorem applyHunksGo_eq_spec :
    ∀ (hunks : List ApplyPatchHunk) (lines : List (List Char)) (cursor : Nat),
      cursor ≤ lines.length →
      applyHunksGo lines cursor hunks = applyHunksGoSpec lines cursor hunks := by
  intro hunks
  induction hunks with
  | nil => intro lines cursor hc; rfl
  | cons h rest ih =>
    intro lines cursor hc
    simp only [applyHunksGo, applyHunksGoSpec]
    rw [find_hunk_match_eq_spec _ _ _ hc,
        find_hunk_match_eq_spec lines (expectedOldOf h) 0 (Nat.zero_le _)]
    cases hm : (findHunkMatchSpec lines (expectedOldOf h) cursor).orElse
        (fun _ => findHunkMatchSpec lines (expectedOldOf h) 0) with
    | none => simp [hm]
    | some pos =>
      simp only [hm]
      have hbound : pos + (expectedOldOf h).length ≤ lines.length := by
        cases h1 : findHunkMatchSpec lines (expectedOldOf h) cursor with
        | some q =>
          rw [h1] at hm
          simp only [Option.orElse] at hm
          cases hm
          exact findHunkMatchSpec_bound _ _ _ _ h1
        | none =>
          rw [h1] at hm
          simp only [Option.orElse] at hm
          exact findHunkMatchSpec_bound _ _ _ _ hm
      apply ih
      simp only [List.length_append, List.length_take, List.length_drop]
      omega

/-- C4 counterexample: the trailing-newline clause fails as an "exactly
when".  On the file "a\nb" (no trailing newline), the hunk with context
"a", removal "b" and an added empty line patches the line vector to
["a", ""], whose join is "a\n": the output ends with a newline although
the original file did not. -/
theorem C4_counterexample :
    apply_patch_hunks "a\nb".data
        [⟨[ApplyPatchHunkLine.context "a".data,
           ApplyPatchHunkLine.remove "b".data,
           ApplyPatchHunkLine.add []]⟩] = some "a\n".data ∧
    endsLF "a\nb".data = false ∧
    endsLF "a\n".data = true := by
  refine ⟨by decide, by decide, by decide⟩

/-- C4 (amended): apply_patch_hunks behaves exactly as the
specification describes the Update engine — for each hunk in order,
expected_old (context and remove lines in source order) is located as a
contiguous window of the file lines at the least index at or after the
cursor (the cursor starts at 0 and advances to the end of the previous
replacement), falling back to the least index from 0, the whole
operation failing when the window is absent; the window is replaced by
the context and add lines in source order — with the amended
trailing-newline rule: a line feed is appended to the newline-joined
patched lines exactly when the original ended with one (so an original
with a trailing newline always yields one; an original without one can
still gain a final newline when the patched content ends in an empty
line). -/
theorem C4_update_engine (original : List Char) (hunks : List ApplyPatchHunk) :
    apply_patch_hunks original hunks = applyPatchHunksSpec original hunks ∧
    (∀ out, apply_patch_hunks original hunks = some out →
      endsLF original = true → endsLF out = true) := by
  constructor
  · unfold apply_patch_hunks applyPatchHunksSpec
    rw [applyHunksGo_eq_spec hunks (rustLines original) 0 (Nat.zero_le _)]
  · intro out hout hlf
    unfold apply_patch_hunks at hout
    simp only [hlf, if_true, Option.map_eq_some'] at hout
    obtain ⟨ls, hls, hout⟩ := hout
    rw [← hout]
    simp [endsLF, List.getLast?_concat]

/-- C4 witness: the equivalence and the preserved trailing newline at a
concrete patch (replace the middle line of "x\ny\nz\n"). -/
theorem C4_update_engine_witness :
    apply_patch_hunks "x\ny\nz\n".data
        [⟨[ApplyPatchHunkLine.context "x".data,
           ApplyPatchHunkLine.remove "y".data,
           ApplyPatchHunkLine.add "Y".data]⟩] = some "x\nY\nz\n".data ∧
    endsLF "x\nY\nz\n".data = true := by
  constructor
  · decide
  · exact (C4_update_engine "x\ny\nz\n".data
      [⟨[ApplyPatchHunkLine.context "x".data,
         ApplyPatchHunkLine.remove "y".data,
         ApplyPatchHunkLine.add "Y".data]⟩]).2 "x\nY\nz\n".data (by decide) (by decide)

/-! ## Lemmas about preconditions -/

theorem evaluate_none_iff (p : Precondition) (path : String) (m : FileMetadata) :
    p.evaluate path m = none ↔ preconditionHolds p m := by
  rcases p with ⟨eh, et, es⟩
  unfold Precondition.evaluate preconditionHolds
  dsimp only
  cases eh <;> cases et <;> cases es <;>
    simp only [ite_some_none_eq_none, Bool.or_eq_true, decide_eq_true_eq,
      Option.some.injEq, forall_eq', Bool.false_eq_true, false_or, or_false,
      ne_eq, not_or, not_not, IsEmpty.forall_iff, forall_const, true_and,
      and_true] <;>
    tauto

theorem evaluate_none_or (p : Precondition) (path : String) (m : FileMetadata) :
    p.evaluate path m = none ∨
    p.evaluate path m = some (JValue.obj
      [("success", JValue.bool false),
       ("error", JValue.str "precondition_failed"),
       ("path", JValue.str path),
       ("expected", JValue.obj p.expectedMap),
       ("actual", JValue.obj m.to_map)]) := by
  unfold Precondition.evaluate
  dsimp only
  split
  · right; rfl
  · left; rfl

theorem evaluate_mismatch (p : Precondition) (path : String) (m : FileMetadata)
    (h : ¬ preconditionHolds p m) :
    p.evaluate path m = some (JValue.obj
      [("success", JValue.bool false),
       ("error", JValue.str "precondition_failed"),
       ("path", JValue.str path),
       ("expected", JValue.obj p.expectedMap),
       ("actual", JValue.obj m.to_map)]) := by
  rcases evaluate_none_or p path m with hn | hs
  · exact absurd ((evaluate_none_iff p path m).mp hn) h
  · exact hs

/-- C3: for a mutation tool invocation carrying a precondition (shown on
write_file, whose execute is the cited representative of the shared
apply_precondition gate): when every supplied precondition field equals
the current file snapshot the mutation proceeds (a write effect is
performed); when any supplied field mismatches, the tool returns the
structured precondition_failed value carrying the supplied expected
fields and the actual snapshot, and performs no write.  A missing file
is the all-absent snapshot, so any supplied field mismatches it. -/
theorem C3_precondition_gate (input pv : JValue) (path content : String)
    (m : FileMetadata)
    (hpre : input.getField "precondition" = some pv)
    (hpath : (input.getField "path").bind JValue.asStr = some path)
    (hcontent : (input.getField "content").bind JValue.asStr = some content) :
    (preconditionHolds (precondition_try_from pv) m →
      apply_precondition input path m = none ∧
      ∃ result effects, write_file_execute input m = .ok (result, effects) ∧
        effects ≠ []) ∧
    (¬ preconditionHolds (precondition_try_from pv) m →
      ∃ c, apply_precondition input path m = some c ∧
        write_file_execute input m = .ok (c, []) ∧
        c.getField "success" = some (JValue.bool false) ∧
        c.getField "error" = some (JValue.str "precondition_failed") ∧
        c.getField "expected" =
          some (JValue.obj (precondition_try_from pv).expectedMap) ∧
        c.getField "actual" = some (JValue.obj m.to_map)) := by
  have happ : apply_precondition input path m =
      (precondition_try_from pv).evaluate path m := by
    unfold apply_precondition
    rw [hpre]
  constructor
  · intro hh
    have hnone : apply_precondition input path m = none := by
      rw [happ]
      exact (evaluate_none_iff _ path m).mpr hh
    refine ⟨hnone, ?_⟩
    unfold write_file_execute
    rw [hpath, hcontent]
    dsimp only
    rw [hnone]
    dsimp only
    by_cases hmode : ((input.getField "mode").bind JValue.asStr).getD "overwrite" = "append"
    · rw [if_pos hmode]
      exact ⟨_, _, rfl, by simp⟩
    · rw [if_neg hmode]
      exact ⟨_, _, rfl, by simp⟩
  · intro hh
    have hsome := evaluate_mismatch (precondition_try_from pv) path m hh
    refine ⟨JValue.obj
      [("success", JValue.bool false),
       ("error", JValue.str "precondition_failed"),
       ("path", JValue.str path),
       ("expected", JValue.obj (precondition_try_from pv).expectedMap),
       ("actual", JValue.obj m.to_map)], ?_, ?_, rfl, rfl, rfl, rfl⟩
    · rw [happ]; exact hsome
    · unfold write_file_execute
      rw [hpath, hcontent]
      dsimp only
      rw [happ, hsome]

/-- C3 witness: specification scenario 3 — the file a.txt has hash H1,
size 3; a write_file guarded by expected_hash "WRONG" is refused with
no write, while the same write guarded by the matching hash
proceeds. -/
theorem C3_precondition_gate_witness :
    (∃ c, apply_precondition
        (JValue.obj
          [("path", JValue.str "a.txt"),
           ("content", JValue.str "v2\n"),
           ("precondition", JValue.obj [("expected_hash", JValue.str "WRONG")])])
        "a.txt" ⟨some "H1", some 100, some 3⟩ = some c ∧
      write_file_execute
        (JValue.obj
          [("path", JValue.str "a.txt"),
           ("content", JValue.str "v2\n"),
           ("precondition", JValue.obj [("expected_hash", JValue.str "WRONG")])])
        ⟨some "H1", some 100, some 3⟩ = .ok (c, []) ∧
      c.getField "success" = some (JValue.bool false) ∧
      c.getField "error" = some (JValue.str "precondition_failed") ∧
      c.getField "expected" = some (JValue.obj
        (precondition_try_from
          (JValue.obj [("expected_hash", JValue.str "WRONG")])).expectedMap) ∧
      c.getField "actual" = some (JValue.obj
        (FileMetadata.mk (some "H1") (some 100) (some 3)).to_map)) ∧
    (∃ result effects, write_file_execute
        (JValue.obj
          [("path", JValue.str "a.txt"),
           ("content", JValue.str "v2\n"),
           ("precondition", JValue.obj [("expected_hash", JValue.str "H1")])])
        ⟨some "H1", some 100, some 3⟩ = .ok (result, effects) ∧ effects ≠ []) := by
  constructor
  · exact (C3_precondition_gate
      (JValue.obj
        [("path", JValue.str "a.txt"),
         ("content", JValue.str "v2\n"),
         ("precondition", JValue.obj [("expected_hash", JValue.str "WRONG")])])
      (JValue.obj [("expected_hash", JValue.str "WRONG")])
      "a.txt" "v2\n" ⟨some "H1", some 100, some 3⟩ rfl rfl rfl).2
      (by decide)
  · exact ((C3_precondition_gate
      (JValue.obj
        [("path", JValue.str "a.txt"),
         ("content", JValue.str "v2\n"),
         ("precondition", JValue.obj [("expected_hash", JValue.str "H1")])])
      (JValue.obj [("expected_hash", JValue.str "H1")])
      "a.txt" "v2\n" ⟨some "H1", some 100, some 3⟩ rfl rfl rfl).1
      (by decide)).2

/-- C10: the write_file parameter schema declares expected_hash,
expected_mtime_unix_ms and expected_size_bytes as top-level properties,
but apply_precondition reads preconditions only from a nested
"precondition" object: an input without that key has any top-level
expected_* fields ignored and the mutation proceeds unconditionally,
whatever the current snapshot. -/
theorem C10_top_level_precondition_ignored (input : JValue)
    (path content : String) (m : FileMetadata)
    (hnone : input.getField "precondition" = none)
    (hpath : (input.getField "path").bind JValue.asStr = some path)
    (hcontent : (input.getField "content").bind JValue.asStr = some content) :
    ((write_file_parameters.getField "properties").bind
      (fun props => props.getField "expected_hash")).isSome = true ∧
    ((write_file_parameters.getField "properties").bind
      (fun props => props.getField "expected_mtime_unix_ms")).isSome = true ∧
    ((write_file_parameters.getField "properties").bind
      (fun props => props.getField "expected_size_bytes")).isSome = true ∧
    apply_precondition input path m = none ∧
    (∃ result effects, write_file_execute input m = .ok (result, effects) ∧
      effects ≠ []) := by
  have hnoapp : apply_precondition input path m = none := by
    unfold apply_precondition
    rw [hnone]
  refine ⟨rfl, rfl, rfl, hnoapp, ?_⟩
  unfold write_file_execute
  rw [hpath, hcontent]
  dsimp only
  rw [hnoapp]
  dsimp only
  by_cases hmode : ((input.getField "mode").bind JValue.asStr).getD "overwrite" = "append"
  · rw [if_pos hmode]
    exact ⟨_, _, rfl, by simp⟩
  · rw [if_neg hmode]
    exact ⟨_, _, rfl, by simp⟩

/-- C10 witness: an input carrying all three expected_* fields at top
level, none matching the current snapshot, still proceeds to the
write. -/
theorem C10_top_level_precondition_ignored_witness :
    ∃ result effects, write_file_execute
      (JValue.obj
        [("path", JValue.str "a.txt"),
         ("content", JValue.str "v2\n"),
         ("expected_hash", JValue.str "WRONG"),
         ("expected_mtime_unix_ms", JValue.num 1),
         ("expected_size_bytes", JValue.num 999)])
      ⟨some "H1", some 100, some 3⟩ = .ok (result, effects) ∧ effects ≠ [] := by
  exact (C10_top_level_precondition_ignored
    (JValue.obj
      [("path", JValue.str "a.txt"),
       ("content", JValue.str "v2\n"),
       ("expected_hash", JValue.str "WRONG"),
       ("expected_mtime_unix_ms", JValue.num 1),
       ("expected_size_bytes", JValue.num 999)])
    "a.txt" "v2\n" ⟨some "H1", some 100, some 3⟩ rfl rfl rfl).2.2.2.2

/-! ## Lemmas about the kernel trace -/

theorem appendedEvents_cons_append (e : KEvent) (tr : List KStep) :
    appendedEvents (KStep.append e :: tr) = e :: appendedEvents tr := rfl

theorem appendedEvents_cons_exec (tc : KToolCall) (tr : List KStep) :
    appendedEvents (KStep.execTool tc :: tr) = appendedEvents tr := rfl

theorem appendedEvents_nil : appendedEvents [] = [] := rfl

theorem appendedEvents_append (l1 l2 : List KStep) :
    appendedEvents (l1 ++ l2) = appendedEvents l1 ++ appendedEvents l2 :=
  List.filterMap_append l1 l2 _

/-- Every completed kernel trace is a list of non-termination steps
followed by exactly one termination append, which is its last step. -/
theorem kernelTrace_term_split (model : List KEvent → KAction) (reg : ToolReg) :
    ∀ (r : Nat) (log : List KEvent),
      ∃ pre t, kernelTrace model reg r log = pre ++ [KStep.append t] ∧
        t.kind = "termination" ∧
        ∀ s ∈ pre, appendsKind "termination" s = false := by
  intro r
  induction r with
  | zero =>
    intro log
    exact ⟨[], termMaxEvent, rfl, rfl, by simp⟩
  | succ r ih =>
    intro log
    cases hm : model log with
    | message content =>
      obtain ⟨pre, t, h1, h2, h3⟩ :=
        ih (log ++ [⟨"action", actionPayload (.message content)⟩])
      refine ⟨KStep.append ⟨"action", actionPayload (.message content)⟩ :: pre,
        t, ?_, h2, ?_⟩
      · simp only [kernelTrace, hm, h1, List.cons_append]
      · intro s hs
        rcases List.mem_cons.mp hs with rfl | hmem
        · rfl
        · exact h3 s hmem
    | toolCall tc =>
      by_cases hd : tc.name = "done"
      · refine ⟨[KStep.append ⟨"action", actionPayload (.toolCall tc)⟩,
          KStep.execTool tc,
          KStep.append ⟨"tool_output", toolOutputPayload tc (execute_tool reg tc)⟩],
          termDoneEvent (execute_tool reg tc), ?_, rfl, ?_⟩
        · simp only [kernelTrace, hm, hd, if_true]
          rfl
        · intro s hs
          simp only [List.mem_cons, List.not_mem_nil, or_false] at hs
          rcases hs with rfl | rfl | rfl
          · rfl
          · rfl
          · rfl
      · obtain ⟨pre, t, h1, h2, h3⟩ :=
          ih (log ++ [⟨"action", actionPayload (.toolCall tc)⟩,
            ⟨"tool_output", toolOutputPayload tc (execute_tool reg tc)⟩])
        refine ⟨KStep.append ⟨"action", actionPayload (.toolCall tc)⟩ ::
          KStep.execTool tc ::
          KStep.append ⟨"tool_output", toolOutputPayload tc (execute_tool reg tc)⟩ ::
          pre, t, ?_, h2, ?_⟩
        · simp only [kernelTrace, hm, hd, if_false, h1, List.cons_append, ite_false]
        · intro s hs
          simp only [List.mem_cons] at hs
          rcases hs with rfl | rfl | rfl | h
          · rfl
          · rfl
          · rfl
          · exact h3 s h

/-- Every event a kernel trace appends is an action, a tool output, or
a termination. -/
theorem kernelTrace_kinds (model : List KEvent → KAction) (reg : ToolReg) :
    ∀ (r : Nat) (log : List KEvent) (e : KEvent),
      e ∈ appendedEvents (kernelTrace model reg r log) →
      e.kind = "action" ∨ e.kind = "tool_output" ∨ e.kind = "termination" := by
  intro r
  induction r with
  | zero =>
    intro log e he
    rw [show kernelTrace model reg 0 log = [KStep.append termMaxEvent] from rfl] at he
    simp only [appendedEvents_cons_append, appendedEvents_nil,
      List.mem_cons, List.not_mem_nil, or_false] at he
    subst he
    right; right; rfl
  | succ r ih =>
    intro log e he
    cases hm : model log with
    | message content =>
      rw [kernelTrace] at he
      simp only [hm] at he
      rw [appendedEvents_cons_append] at he
      rcases List.mem_cons.mp he with rfl | hmem
      · left; rfl
      · exact ih _ e hmem
    | toolCall tc =>
      rw [kernelTrace] at he
      simp only [hm] at he
      by_cases hd : tc.name = "done"
      · simp only [hd, if_true] at he
        simp only [appendedEvents_cons_append, appendedEvents_cons_exec,
          appendedEvents_nil, List.mem_cons, List.not_mem_nil, or_false] at he
        rcases he with rfl | rfl | rfl
        · left; rfl
        · right; left; rfl
        · right; right; rfl
      · simp only [hd, if_false, ite_false] at he
        rw [appendedEvents_cons_append, appendedEvents_cons_exec,
          appendedEvents_cons_append] at he
        rcases List.mem_cons.mp he with rfl | he2
        · left; rfl
        · rcases List.mem_cons.mp he2 with rfl | hmem
          · right; left; rfl
          · exact ih _ e hmem

/-- C2: a goal run to completion — the bootstrap appends the goal event
at creation and a completed kernel run appends the rest — loads as a
log that starts with the single goal event and contains at most one
termination event, which is the last event. -/
theorem C2_loaded_log_shape (model : List KEvent → KAction) (reg : ToolReg)
    (n : Nat) (g : String) :
    (kernelRun model reg n [goalEvent g]).head? = some (goalEvent g) ∧
    List.countP (fun e => e.kind == "goal")
      (kernelRun model reg n [goalEvent g]) = 1 ∧
    List.countP (fun e => e.kind == "termination")
      (kernelRun model reg n [goalEvent g]) ≤ 1 ∧
    (∀ i e, (kernelRun model reg n [goalEvent g])[i]? = some e →
      e.kind = "termination" →
      i = (kernelRun model reg n [goalEvent g]).length - 1) := by
  obtain ⟨pre, t, h1, h2, h3⟩ := kernelTrace_term_split model reg n [goalEvent g]
  have hev : appendedEvents (kernelTrace model reg n [goalEvent g]) =
      appendedEvents pre ++ [t] := by
    rw [h1, appendedEvents_append, appendedEvents_cons_append, appendedEvents_nil]
  have hkr : kernelRun model reg n [goalEvent g] =
      goalEvent g :: (appendedEvents pre ++ [t]) := by
    unfold kernelRun
    rw [hev]
    rfl
  have hpre_noterm : ∀ e ∈ appendedEvents pre, e.kind ≠ "termination" := by
    intro e he
    unfold appendedEvents at he
    rw [List.mem_filterMap] at he
    obtain ⟨s, hs, hmap⟩ := he
    cases s with
    | append e2 =>
      cases hmap
      have := h3 _ hs
      unfold appendsKind at this
      simpa using this
    | execTool tc => cases hmap
  have hall_kind : ∀ e ∈ appendedEvents pre ++ [t], e.kind ≠ "goal" := by
    intro e he
    have hmem : e ∈ appendedEvents (kernelTrace model reg n [goalEvent g]) := by
      rw [hev]; exact he
    rcases kernelTrace_kinds model reg n _ e hmem with h | h | h <;> simp [h]
  refine ⟨by rw [hkr]; rfl, ?_, ?_, ?_⟩
  · rw [hkr, List.countP_cons]
    have hz : List.countP (fun e => e.kind == "goal")
        (appendedEvents pre ++ [t]) = 0 := by
      rw [List.countP_eq_zero]
      intro e he
      simpa using hall_kind e he
    rw [hz]
    rfl
  · rw [hkr, List.countP_cons, List.countP_append]
    have hz : List.countP (fun e => e.kind == "termination")
        (appendedEvents pre) = 0 := by
      rw [List.countP_eq_zero]
      intro e he
      simpa using hpre_noterm e he
    rw [hz]
    have ht1 : List.countP (fun e => e.kind == "termination") [t] = 1 := by
      simp [List.countP_cons, h2]
    rw [ht1]
    simp [goalEvent]
  · intro i e hi hterm
    rw [hkr] at hi
    cases i with
    | zero =>
      simp only [List.getElem?_cons_zero, Option.some.injEq] at hi
      subst hi
      have hne : ("goal" : String) ≠ "termination" := by decide
      exact absurd hterm hne
    | succ i =>
      simp only [List.getElem?_cons_succ] at hi
      by_cases hlt : i < (appendedEvents pre).length
      · rw [List.getElem?_append_left hlt] at hi
        obtain ⟨hb, rfl⟩ := List.getElem?_eq_some.mp hi
        exact absurd hterm (hpre_noterm _ (List.getElem_mem hb))
      · have hge : (appendedEvents pre).length ≤ i := by omega
        rw [List.getElem?_append_right hge] at hi
        have hb := (List.getElem?_eq_some.mp hi).1
        simp only [List.length_cons, List.length_nil] at hb
        rw [hkr]
        simp only [List.length_cons, List.length_append, List.length_nil]
        omega

/-- Every tool execution step is immediately preceded by the append of
the action event carrying that tool call. -/
theorem kernelTrace_exec_action (model : List KEvent → KAction) (reg : ToolReg) :
    ∀ (r : Nat) (log : List KEvent) (i : Nat) (tc : KToolCall),
      (kernelTrace model reg r log)[i]? = some (KStep.execTool tc) →
      1 ≤ i ∧ (kernelTrace model reg r log)[i - 1]? =
        some (KStep.append ⟨"action", actionPayload (KAction.toolCall tc)⟩) := by
  intro r
  induction r with
  | zero =>
    intro log i tc h
    rw [show kernelTrace model reg 0 log = [KStep.append termMaxEvent] from rfl] at h
    cases i with
    | zero => simp at h
    | succ i => simp at h
  | succ r ih =>
    intro log i tc h
    cases hm : model log with
    | message content =>
      rw [kernelTrace] at h ⊢
      simp only [hm] at h ⊢
      cases i with
      | zero => simp at h
      | succ i =>
        rw [List.getElem?_cons_succ] at h
        obtain ⟨h1, h2⟩ := ih _ i tc h
        refine ⟨by omega, ?_⟩
        have hidx : i + 1 - 1 = (i - 1) + 1 := by omega
        rw [hidx, List.getElem?_cons_succ]
        exact h2
    | toolCall tc2 =>
      rw [kernelTrace] at h ⊢
      simp only [hm] at h ⊢
      cases i with
      | zero => simp at h
      | succ i =>
        cases i with
        | zero =>
          simp only [List.getElem?_cons_succ, List.getElem?_cons_zero,
            Option.some.injEq, KStep.execTool.injEq] at h
          subst h
          exact ⟨by omega, rfl⟩
        | succ i =>
          cases i with
          | zero => simp at h
          | succ i =>
            simp only [List.getElem?_cons_succ] at h
            by_cases hd : tc2.name = "done"
            · simp only [hd, if_true] at h
              cases i with
              | zero => simp at h
              | succ i => simp at h
            · simp only [hd, if_false, ite_false] at h
              obtain ⟨h1, h2⟩ := ih _ i tc h
              refine ⟨by omega, ?_⟩
              have hidx : i + 1 + 1 + 1 - 1 = (i - 1) + 1 + 1 + 1 := by omega
              rw [hidx]
              simp only [List.getElem?_cons_succ, hd, if_false, ite_false]
              exact h2

/-- Every tool execution step is immediately followed by the append of
the tool_output event pairing that call with the executed output. -/
theorem kernelTrace_exec_output (model : List KEvent → KAction) (reg : ToolReg) :
    ∀ (r : Nat) (log : List KEvent) (i : Nat) (tc : KToolCall),
      (kernelTrace model reg r log)[i]? = some (KStep.execTool tc) →
      (kernelTrace model reg r log)[i + 1]? =
        some (KStep.append ⟨"tool_output", toolOutputPayload tc (execute_tool reg tc)⟩) := by
  intro r
  induction r with
  | zero =>
    intro log i tc h
    rw [show kernelTrace model reg 0 log = [KStep.append termMaxEvent] from rfl] at h
    cases i with
    | zero => simp at h
    | succ i => simp at h
  | succ r ih =>
    intro log i tc h
    cases hm : model log with
    | message content =>
      rw [kernelTrace] at h ⊢
      simp only [hm] at h ⊢
      cases i with
      | zero => simp at h
      | succ i =>
        rw [List.getElem?_cons_succ] at h
        rw [List.getElem?_cons_succ]
        exact ih _ i tc h
    | toolCall tc2 =>
      rw [kernelTrace] at h ⊢
      simp only [hm] at h ⊢
      cases i with
      | zero => simp at h
      | succ i =>
        cases i with
        | zero =>
          simp only [List.getElem?_cons_succ, List.getElem?_cons_zero,
            Option.some.injEq, KStep.execTool.injEq] at h
          subst h
          simp
        | succ i =>
          cases i with
          | zero => simp at h
          | succ i =>
            simp only [List.getElem?_cons_succ] at h
            by_cases hd : tc2.name = "done"
            · simp only [hd, if_true] at h
              cases i with
              | zero => simp at h
              | succ i => simp at h
            · simp only [hd, if_false, ite_false] at h
              simp only [List.getElem?_cons_succ, hd, if_false, ite_false]
              exact ih _ i tc h

/-- C1: in the ordered step sequence of a kernel run, every tool
execution is preceded by the append of its action event; every tool
execution is followed by the append of the paired tool_output event;
and every tool_output append precedes every termination append (in
particular the termination appended when the tool name is done). -/
theorem C1_action_before_exec_output_before_termination
    (model : List KEvent → KAction) (reg : ToolReg) (r : Nat) (log : List KEvent) :
    (∀ (i : Nat) (tc : KToolCall),
      (kernelTrace model reg r log)[i]? = some (KStep.execTool tc) →
      ∃ j, j < i ∧ (kernelTrace model reg r log)[j]? =
        some (KStep.append ⟨"action", actionPayload (KAction.toolCall tc)⟩)) ∧
    (∀ (i : Nat) (tc : KToolCall),
      (kernelTrace model reg r log)[i]? = some (KStep.execTool tc) →
      ∃ j, i < j ∧ (kernelTrace model reg r log)[j]? =
        some (KStep.append ⟨"tool_output", toolOutputPayload tc (execute_tool reg tc)⟩)) ∧
    (∀ (i j : Nat) (ei ej : KEvent),
      (kernelTrace model reg r log)[i]? = some (KStep.append ei) →
      ei.kind = "tool_output" →
      (kernelTrace model reg r log)[j]? = some (KStep.append ej) →
      ej.kind = "termination" → i < j) := by
  refine ⟨?_, ?_, ?_⟩
  · intro i tc h
    obtain ⟨h1, h2⟩ := kernelTrace_exec_action model reg r log i tc h
    refine ⟨i - 1, ?_, h2⟩
    omega
  · intro i tc h
    refine ⟨i + 1, ?_, kernelTrace_exec_output model reg r log i tc h⟩
    omega
  · intro i j ei ej hi hik hj hjk
    obtain ⟨pre, t, h1, h2, h3⟩ := kernelTrace_term_split model reg r log
    rw [h1] at hi hj
    have hilen : i < pre.length + 1 := by
      have := (List.getElem?_eq_some.mp hi).1
      simpa using this
    have hjlen : j < pre.length + 1 := by
      have := (List.getElem?_eq_some.mp hj).1
      simpa using this
    have hine : i ≠ pre.length := by
      intro hie
      subst hie
      rw [List.getElem?_append_right (le_refl _)] at hi
      simp only [Nat.sub_self, List.getElem?_cons_zero, Option.some.injEq,
        KStep.append.injEq] at hi
      subst hi
      rw [hik] at h2
      exact absurd h2 (by decide)
    have hjeq : j = pre.length := by
      by_contra hne
      have hjlt : j < pre.length := by omega
      rw [List.getElem?_append_left hjlt] at hj
      obtain ⟨hb, hb2⟩ := List.getElem?_eq_some.mp hj
      have hmem : KStep.append ej ∈ pre := by
        rw [← hb2]
        exact List.getElem_mem hb
      have h4 := h3 _ hmem
      simp [appendsKind, hjk] at h4
    omega

/-- C1 witness: a run whose model immediately calls the done tool; the
execution step at index 1 has its action append at index 0 and its
tool_output append at index 2, and the tool_output append (index 2)
precedes the termination append (index 3). -/
theorem C1_ordering_witness :
    (∃ j, j < 1 ∧
      (kernelTrace (fun _ => KAction.toolCall ⟨"call-1", "done", JValue.null⟩)
        (fun _ => none) 3 [goalEvent "g"])[j]? =
        some (KStep.append ⟨"action",
          actionPayload (KAction.toolCall ⟨"call-1", "done", JValue.null⟩)⟩)) ∧
    (∃ j, 1 < j ∧
      (kernelTrace (fun _ => KAction.toolCall ⟨"call-1", "done", JValue.null⟩)
        (fun _ => none) 3 [goalEvent "g"])[j]? =
        some (KStep.append ⟨"tool_output",
          toolOutputPayload ⟨"call-1", "done", JValue.null⟩
            (execute_tool (fun _ => none) ⟨"call-1", "done", JValue.null⟩)⟩)) ∧
    (2 : Nat) < 3 := by
  refine ⟨?_, ?_, by omega⟩
  · exact (C1_action_before_exec_output_before_termination
      (fun _ => KAction.toolCall ⟨"call-1", "done", JValue.null⟩)
      (fun _ => none) 3 [goalEvent "g"]).1 1 ⟨"call-1", "done", JValue.null⟩ rfl
  · exact (C1_action_before_exec_output_before_termination
      (fun _ => KAction.toolCall ⟨"call-1", "done", JValue.null⟩)
      (fun _ => none) 3 [goalEvent "g"]).2.1 1 ⟨"call-1", "done", JValue.null⟩ rfl

/-- The output execute_tool produces is either the registered tool's
success value or an error object of the shape (error : string). -/
theorem execute_tool_shape (reg : ToolReg) (tc : KToolCall) :
    (∃ f v, reg tc.name = some f ∧ f tc.arguments = Except.ok v ∧
      execute_tool reg tc = v) ∨
    (∃ s, execute_tool reg tc = JValue.obj [("error", JValue.str s)]) := by
  cases hr : reg tc.name with
  | none =>
    right
    refine ⟨"Tool " ++ tc.name ++ " not found", ?_⟩
    unfold execute_tool
    rw [hr]
  | some f =>
    cases hf : f tc.arguments with
    | ok v =>
      left
      refine ⟨f, v, rfl, hf, ?_⟩
      unfold execute_tool
      rw [hr]
      dsimp only
      rw [hf]
    | error e =>
      right
      refine ⟨e, ?_⟩
      unfold execute_tool
      rw [hr]
      dsimp only
      rw [hf]

/-- The fields of the tool_output payload the kernel builds: it carries
exactly tool_call_id and output; there is no name field. -/
theorem toolOutputPayload_fields (tc : KToolCall) (output : JValue) :
    (toolOutputPayload tc output).getField "tool_call_id" =
      some (JValue.str tc.id) ∧
    (toolOutputPayload tc output).getField "output" = some output ∧
    (toolOutputPayload tc output).getField "name" = none :=
  ⟨rfl, rfl, rfl⟩

/-- Every tool_output event a kernel trace appends is the payload built
by append_tool_output for the tool call executed in the immediately
preceding step. -/
theorem kernelTrace_output_shape (model : List KEvent → KAction) (reg : ToolReg) :
    ∀ (r : Nat) (log : List KEvent) (i : Nat) (e : KEvent),
      (kernelTrace model reg r log)[i]? = some (KStep.append e) →
      e.kind = "tool_output" →
      ∃ tc, e.payload = toolOutputPayload tc (execute_tool reg tc) ∧
        (kernelTrace model reg r log)[i - 1]? = some (KStep.execTool tc) := by
  intro r
  induction r with
  | zero =>
    intro log i e h hk
    rw [show kernelTrace model reg 0 log = [KStep.append termMaxEvent] from rfl] at h
    cases i with
    | zero =>
      simp only [List.getElem?_cons_zero, Option.some.injEq, KStep.append.injEq] at h
      subst h
      exact absurd hk (by decide)
    | succ i => simp at h
  | succ r ih =>
    intro log i e h hk
    cases hm : model log with
    | message content =>
      rw [kernelTrace] at h ⊢
      simp only [hm] at h ⊢
      cases i with
      | zero =>
        simp only [List.getElem?_cons_zero, Option.some.injEq, KStep.append.injEq] at h
        subst h
        have hne : ("action" : String) ≠ "tool_output" := by decide
        exact absurd hk hne
      | succ i =>
        rw [List.getElem?_cons_succ] at h
        obtain ⟨tc, hp, hprev⟩ := ih _ i e h hk
        cases i with
        | zero =>
          rw [hprev] at h
          cases h
        | succ i =>
          refine ⟨tc, hp, ?_⟩
          have hidx : i + 1 + 1 - 1 = (i + 1 - 1) + 1 := by omega
          rw [hidx, List.getElem?_cons_succ]
          exact hprev
    | toolCall tc2 =>
      rw [kernelTrace] at h ⊢
      simp only [hm] at h ⊢
      cases i with
      | zero =>
        simp only [List.getElem?_cons_zero, Option.some.injEq, KStep.append.injEq] at h
        subst h
        have hne : ("action" : String) ≠ "tool_output" := by decide
        exact absurd hk hne
      | succ i =>
        cases i with
        | zero => simp at h
        | succ i =>
          cases i with
          | zero =>
            simp only [List.getElem?_cons_succ, List.getElem?_cons_zero,
              Option.some.injEq, KStep.append.injEq] at h
            subst h
            exact ⟨tc2, rfl, rfl⟩
          | succ i =>
            simp only [List.getElem?_cons_succ] at h
            by_cases hd : tc2.name = "done"
            · simp only [hd, if_true] at h
              cases i with
              | zero =>
                simp only [List.getElem?_cons_zero, Option.some.injEq,
                  KStep.append.injEq] at h
                subst h
                have hne : ("termination" : String) ≠ "tool_output" := by decide
                exact absurd hk hne
              | succ i => simp at h
            · simp only [hd, if_false, ite_false] at h
              obtain ⟨tc, hp, hprev⟩ := ih _ i e h hk
              cases i with
              | zero =>
                rw [hprev] at h
                cases h
              | succ i =>
                refine ⟨tc, hp, ?_⟩
                have hidx : i + 1 + 1 + 1 + 1 - 1 = (i + 1 - 1) + 1 + 1 + 1 := by omega
                rw [hidx]
                simp only [List.getElem?_cons_succ, hd, if_false, ite_false]
                exact hprev

/-- C6 counterexample: the kernel's tool_output payload has no name
field.  In a concrete completed run whose model calls the (unregistered)
done tool, the tool_output event at index 2 of the loaded log carries
exactly tool_call_id and output — its payload reads back no "name"
field, although the specification lists one. -/
theorem C6_counterexample :
    ∃ e, (kernelRun (fun _ => KAction.toolCall ⟨"call-1", "done", JValue.null⟩)
        (fun _ => none) 5 [goalEvent "g"])[2]? = some e ∧
      e.kind = "tool_output" ∧
      e.payload = JValue.obj
        [("tool_call_id", JValue.str "call-1"),
         ("output", JValue.obj
           [("error", JValue.str "Tool done not found")])] ∧
      e.payload.getField "tool_call_id" = some (JValue.str "call-1") ∧
      e.payload.getField "output" =
        some (JValue.obj [("error", JValue.str "Tool done not found")]) ∧
      e.payload.getField "name" = none := by
  refine ⟨⟨"tool_output",
    JValue.obj
      [("tool_call_id", JValue.str "call-1"),
       ("output", JValue.obj [("error", JValue.str "Tool done not found")])]⟩,
    ?_, rfl, rfl, rfl, rfl, rfl⟩
  rfl

/-- C6 (amended): every tool_output event the kernel appends has a
payload containing exactly the two fields tool_call_id and output — no
name field — where tool_call_id is the id of the tool call executed in
the immediately preceding step and output is either the tool's success
JSON value or an object of the shape (error : string). -/
theorem C6_tool_output_payload (model : List KEvent → KAction) (reg : ToolReg)
    (r : Nat) (log : List KEvent) (i : Nat) (e : KEvent)
    (h : (kernelTrace model reg r log)[i]? = some (KStep.append e))
    (hk : e.kind = "tool_output") :
    ∃ tc, e.payload = toolOutputPayload tc (execute_tool reg tc) ∧
      (kernelTrace model reg r log)[i - 1]? = some (KStep.execTool tc) ∧
      e.payload.getField "tool_call_id" = some (JValue.str tc.id) ∧
      e.payload.getField "output" = some (execute_tool reg tc) ∧
      e.payload.getField "name" = none ∧
      ((∃ f v, reg tc.name = some f ∧ f tc.arguments = Except.ok v ∧
        execute_tool reg tc = v) ∨
       (∃ s, execute_tool reg tc = JValue.obj [("error", JValue.str s)])) := by
  obtain ⟨tc, hp, hprev⟩ := kernelTrace_output_shape model reg r log i e h hk
  refine ⟨tc, hp, hprev, ?_, ?_, ?_, execute_tool_shape reg tc⟩
  · rw [hp]
    exact (toolOutputPayload_fields tc _).1
  · rw [hp]
    exact (toolOutputPayload_fields tc _).2.1
  · rw [hp]
    exact (toolOutputPayload_fields tc _).2.2

/-- C6 witness: the amended payload shape at the concrete run of the
counterexample, at trace index 2. -/
theorem C6_tool_output_payload_witness :
    ∃ tc, (⟨"tool_output",
        toolOutputPayload ⟨"call-1", "done", JValue.null⟩
          (execute_tool (fun _ => none) ⟨"call-1", "done", JValue.null⟩)⟩ :
          KEvent).payload = toolOutputPayload tc
            (execute_tool (fun _ => none) tc) ∧
      (kernelTrace (fun _ => KAction.toolCall ⟨"call-1", "done", JValue.null⟩)
        (fun _ => none) 5 [goalEvent "g"])[2 - 1]? =
          some (KStep.execTool tc) ∧
      (toolOutputPayload ⟨"call-1", "done", JValue.null⟩
        (execute_tool (fun _ => none) ⟨"call-1", "done", JValue.null⟩)).getField
          "tool_call_id" = some (JValue.str tc.id) ∧
      (toolOutputPayload ⟨"call-1", "done", JValue.null⟩
        (execute_tool (fun _ => none) ⟨"call-1", "done", JValue.null⟩)).getField
          "output" = some (execute_tool (fun _ => none) tc) ∧
      (toolOutputPayload ⟨"call-1", "done", JValue.null⟩
        (execute_tool (fun _ => none) ⟨"call-1", "done", JValue.null⟩)).getField
          "name" = none ∧
      ((∃ f v, (fun _ => none : ToolReg) tc.name = some f ∧
        f tc.arguments = Except.ok v ∧
        execute_tool (fun _ => none) tc = v) ∨
       (∃ s, execute_tool (fun _ => none) tc =
         JValue.obj [("error", JValue.str s)])) :=
  C6_tool_output_payload
    (fun _ => KAction.toolCall ⟨"call-1", "done", JValue.null⟩)
    (fun _ => none) 5 [goalEvent "g"] 2
    ⟨"tool_output",
      toolOutputPayload ⟨"call-1", "done", JValue.null⟩
        (execute_tool (fun _ => none) ⟨"call-1", "done", JValue.null⟩)⟩
    rfl rfl

/-- With a model that always answers with a chat message, the trace
appends exactly one action event per remaining iteration and then the
max_iterations termination. -/
theorem kernelTrace_all_messages (model : List KEvent → KAction) (reg : ToolReg)
    (hm : ∀ h, ∃ s, model h = KAction.message s) :
    ∀ (r : Nat) (log : List KEvent),
      ∃ acts : List KEvent,
        appendedEvents (kernelTrace model reg r log) = acts ++ [termMaxEvent] ∧
        acts.length = r ∧
        ∀ e ∈ acts, e.kind = "action" ∧
          ∃ s, e.payload = actionPayload (KAction.message s) := by
  intro r
  induction r with
  | zero =>
    intro log
    exact ⟨[], rfl, rfl, by simp⟩
  | succ r ih =>
    intro log
    obtain ⟨s, hs⟩ := hm log
    obtain ⟨acts, h1, h2, h3⟩ :=
      ih (log ++ [⟨"action", actionPayload (.message s)⟩])
    refine ⟨⟨"action", actionPayload (.message s)⟩ :: acts, ?_, by simp [h2], ?_⟩
    · rw [kernelTrace]
      simp only [hs]
      rw [appendedEvents_cons_append, h1]
      rfl
    · intro e he
      rcases List.mem_cons.mp he with rfl | hmem
      · exact ⟨rfl, s, rfl⟩
      · exact h3 e hmem

/-- C9: when the model always returns a Message action, a run with
max_iterations = n loads as the goal event, exactly n action events
(each a serialized Message), and a final termination event with reason
max_iterations; no tool_output event is appended. -/
theorem C9_max_iterations_cap (model : List KEvent → KAction) (reg : ToolReg)
    (n : Nat) (g : String)
    (hm : ∀ h, ∃ s, model h = KAction.message s) :
    ∃ acts : List KEvent,
      kernelRun model reg n [goalEvent g] =
        goalEvent g :: (acts ++ [termMaxEvent]) ∧
      acts.length = n ∧
      (∀ e ∈ acts, e.kind = "action" ∧
        ∃ s, e.payload = actionPayload (KAction.message s)) ∧
      List.countP (fun e => e.kind == "action")
        (kernelRun model reg n [goalEvent g]) = n ∧
      List.countP (fun e => e.kind == "tool_output")
        (kernelRun model reg n [goalEvent g]) = 0 ∧
      termMaxEvent.kind = "termination" ∧
      termMaxEvent.payload.getField "reason" =
        some (JValue.str "max_iterations") := by
  obtain ⟨acts, h1, h2, h3⟩ := kernelTrace_all_messages model reg hm n [goalEvent g]
  have hkr : kernelRun model reg n [goalEvent g] =
      goalEvent g :: (acts ++ [termMaxEvent]) := by
    unfold kernelRun
    rw [h1]
    rfl
  refine ⟨acts, hkr, h2, h3, ?_, ?_, rfl, rfl⟩
  · rw [hkr, List.countP_cons, List.countP_append]
    have hacts : List.countP (fun e => e.kind == "action") acts = acts.length := by
      rw [List.countP_eq_length]
      intro e he
      simp [(h3 e he).1]
    rw [hacts, h2]
    simp [goalEvent, termMaxEvent]
  · rw [hkr, List.countP_cons, List.countP_append]
    have hacts : List.countP (fun e => e.kind == "tool_output") acts = 0 := by
      rw [List.countP_eq_zero]
      intro e he
      simp [(h3 e he).1]
    rw [hacts]
    simp [goalEvent, termMaxEvent]

/-- C9 witness: specification scenario 2 — max_iterations = 2 and a
model that always answers Message "thinking" yields goal, two action
events, then the max_iterations termination, with no tool output. -/
theorem C9_max_iterations_cap_witness :
    ∃ acts : List KEvent,
      kernelRun (fun _ => KAction.message "thinking") (fun _ => none) 2
        [goalEvent "g"] = goalEvent "g" :: (acts ++ [termMaxEvent]) ∧
      acts.length = 2 ∧
      (∀ e ∈ acts, e.kind = "action" ∧
        ∃ s, e.payload = actionPayload (KAction.message s)) ∧
      List.countP (fun e => e.kind == "action")
        (kernelRun (fun _ => KAction.message "thinking") (fun _ => none) 2
          [goalEvent "g"]) = 2 ∧
      List.countP (fun e => e.kind == "tool_output")
        (kernelRun (fun _ => KAction.message "thinking") (fun _ => none) 2
          [goalEvent "g"]) = 0 ∧
      termMaxEvent.kind = "termination" ∧
      termMaxEvent.payload.getField "reason" =
        some (JValue.str "max_iterations") :=
  C9_max_iterations_cap (fun _ => KAction.message "thinking") (fun _ => none) 2 "g"
    (fun _ => ⟨"thinking", rfl⟩)

/-! ## Lemmas about the bounded stream reader -/

theorem readLimitedGo_true_flag (maxBytes : Nat) :
    ∀ (chunks : List (List Nat)) (buffer : List Nat),
      (readLimitedGo maxBytes chunks buffer true).2 = true := by
  intro chunks
  induction chunks with
  | nil => intro buffer; rfl
  | cons c rest ih =>
    intro buffer
    rw [readLimitedGo]
    by_cases h0 : c.length = 0
    · rw [if_pos h0]
    · rw [if_neg h0]
      by_cases hb : buffer.length < maxBytes
      · rw [if_pos hb]
        dsimp only
        by_cases hc : c.length ≤ maxBytes - buffer.length
        · rw [if_pos hc]
          exact ih _
        · rw [if_neg hc]
          exact ih _
      · rw [if_neg hb]
        exact ih _

theorem readLimitedGo_len (maxBytes : Nat) :
    ∀ (chunks : List (List Nat)) (buffer : List Nat) (truncated : Bool),
      buffer.length ≤ maxBytes →
      (readLimitedGo maxBytes chunks buffer truncated).1.length ≤ maxBytes := by
  intro chunks
  induction chunks with
  | nil => intro buffer truncated hb; exact hb
  | cons c rest ih =>
    intro buffer truncated hb
    rw [readLimitedGo]
    by_cases h0 : c.length = 0
    · rw [if_pos h0]
      exact hb
    · rw [if_neg h0]
      by_cases hblt : buffer.length < maxBytes
      · rw [if_pos hblt]
        dsimp only
        by_cases hc : c.length ≤ maxBytes - buffer.length
        · rw [if_pos hc]
          exact ih _ _ (by simp only [List.length_append]; omega)
        · rw [if_neg hc]
          refine ih _ _ ?_
          simp only [List.length_append, List.length_take]
          omega
      · rw [if_neg hblt]
        exact ih _ _ hb

theorem readLimitedGo_flag (maxBytes : Nat) :
    ∀ (chunks : List (List Nat)) (buffer : List Nat),
      buffer.length ≤ maxBytes →
      ((readLimitedGo maxBytes chunks buffer false).2 = true ↔
        maxBytes < buffer.length + sourceBytes chunks) := by
  intro chunks
  induction chunks with
  | nil =>
    intro buffer hb
    rw [readLimitedGo, sourceBytes]
    simp
    omega
  | cons c rest ih =>
    intro buffer hb
    rw [readLimitedGo, sourceBytes]
    by_cases h0 : c.length = 0
    · rw [if_pos h0, if_pos h0]
      simp
      omega
    · rw [if_neg h0, if_neg h0]
      by_cases hblt : buffer.length < maxBytes
      · rw [if_pos hblt]
        dsimp only
        by_cases hc : c.length ≤ maxBytes - buffer.length
        · rw [if_pos hc]
          rw [ih (buffer ++ c) (by simp only [List.length_append]; omega)]
          simp only [List.length_append]
          omega
        · rw [if_neg hc]
          constructor
          · intro _
            omega
          · intro _
            exact readLimitedGo_true_flag maxBytes rest _
      · rw [if_neg hblt]
        constructor
        · intro _
          omega
        · intro _
          exact readLimitedGo_true_flag maxBytes rest _

/-- C7: the captured stream never exceeds the configured cap, and the
truncated flag is set exactly when the source stream produced strictly
more bytes than the cap (bytes counted up to the end-of-stream read). -/
theorem C7_stream_capture_bound (chunks : List (List Nat)) (maxBytes : Nat) :
    (read_stream_limited chunks maxBytes).1.length ≤ maxBytes ∧
    ((read_stream_limited chunks maxBytes).2 = true ↔
      maxBytes < sourceBytes chunks) := by
  constructor
  · exact readLimitedGo_len maxBytes chunks [] false (by simp)
  · have := readLimitedGo_flag maxBytes chunks [] (by simp)
    simpa using this

/-- C7 witness: a 5-byte stream against a 4-byte cap is cut to 4 bytes
with the flag set; against a 5-byte cap it is kept whole with the flag
clear. -/
theorem C7_stream_capture_bound_witness :
    ((read_stream_limited [[1, 2, 3], [4, 5]] 4).1.length ≤ 4 ∧
      ((read_stream_limited [[1, 2, 3], [4, 5]] 4).2 = true ↔
        4 < sourceBytes [[1, 2, 3], [4, 5]])) ∧
    read_stream_limited [[1, 2, 3], [4, 5]] 4 = ([1, 2, 3, 4], true) ∧
    read_stream_limited [[1, 2, 3], [4, 5]] 5 = ([1, 2, 3, 4, 5], false) := by
  refine ⟨C7_stream_capture_bound [[1, 2, 3], [4, 5]] 4, by decide, by decide⟩

/-! ## The bash denylist claim -/

/-- C8 counterexample: the registered bash tool applies no denylist.  A
script containing the destructive fragments "sudo" and "rm " — both on
the only denylist in the repository (the rx-core draft's) — is passed
to /bin/bash -c and spawned rather than rejected. -/
theorem C8_counterexample :
    bash_tool_execute (JValue.obj [("script", JValue.str "sudo rm -rf /")]) =
      .ok (SpawnDecision.spawn "/bin/bash" ["-c", "sudo rm -rf /"]) ∧
    ("sudo" ∈ rxForbidden ∧
      containsSub (toLowerList "sudo rm -rf /".data) "sudo".data = true) ∧
    ("rm " ∈ rxForbidden ∧
      containsSub (toLowerList "sudo rm -rf /".data) "rm ".data = true) := by
  refine ⟨rfl, ⟨by decide, by decide⟩, ⟨by decide, by decide⟩⟩

/-- C8 (amended): the registered bash tool (tools/bash.rs) filters
nothing: every input with a script string is spawned via /bin/bash -c.
Only the separate rx-core draft's bash tool applies the static denylist
of destructive command fragments: a command whose lower-cased text
contains any denylisted fragment is denied without spawning, and
otherwise bash -lc is spawned. -/
theorem C8_denylist_location (command : String) :
    ((∃ pat ∈ rxForbidden,
        containsSub (toLowerList command.data) pat.data = true) →
      rx_core_bash_call command = SpawnDecision.denied command) ∧
    ((∀ pat ∈ rxForbidden,
        containsSub (toLowerList command.data) pat.data = false) →
      rx_core_bash_call command = SpawnDecision.spawn "bash" ["-lc", command]) ∧
    (∀ (input : JValue) (script : String),
      (input.getField "script").bind JValue.asStr = some script →
      bash_tool_execute input =
        .ok (SpawnDecision.spawn "/bin/bash" ["-c", script])) := by
  refine ⟨?_, ?_, ?_⟩
  · intro h
    unfold rx_core_bash_call
    rw [if_pos]
    rw [List.any_eq_true]
    obtain ⟨pat, hmem, hc⟩ := h
    exact ⟨pat, hmem, hc⟩
  · intro h
    unfold rx_core_bash_call
    rw [if_neg]
    rw [List.any_eq_true]
    rintro ⟨pat, hmem, hc⟩
    rw [h pat hmem] at hc
    cases hc
  · intro input script hs
    unfold bash_tool_execute
    rw [hs]

/-- C8 witness: "sudo ls" is denied by the rx-core bash tool; "echo hi"
is spawned; the registered bash tool spawns its script unfiltered. -/
theorem C8_denylist_location_witness :
    rx_core_bash_call "sudo ls" = SpawnDecision.denied "sudo ls" ∧
    rx_core_bash_call "echo hi" = SpawnDecision.spawn "bash" ["-lc", "echo hi"] ∧
    bash_tool_execute (JValue.obj [("script", JValue.str "echo hi")]) =
      .ok (SpawnDecision.spawn "/bin/bash" ["-c", "echo hi"]) := by
  refine ⟨?_, ?_, ?_⟩
  · exact (C8_denylist_location "sudo ls").1 ⟨"sudo", by decide, by decide⟩
  · exact (C8_denylist_location "echo hi").2.1 (by decide)
  · exact (C8_denylist_location "echo hi").2.2
      (JValue.obj [("script", JValue.str "echo hi")]) "echo hi" rfl

/-- C2 witness: a one-iteration message run loads as goal, action,
termination; the termination event sits at the last index. -/
theorem C2_loaded_log_shape_witness :
    (kernelRun (fun _ => KAction.message "thinking") (fun _ => none) 1
      [goalEvent "g"]).head? = some (goalEvent "g") ∧
    (2 : Nat) = (kernelRun (fun _ => KAction.message "thinking") (fun _ => none) 1
      [goalEvent "g"]).length - 1 := by
  constructor
  · exact (C2_loaded_log_shape (fun _ => KAction.message "thinking")
      (fun _ => none) 1 "g").1
  · exact (C2_loaded_log_shape (fun _ => KAction.message "thinking")
      (fun _ => none) 1 "g").2.2.2 2 termMaxEvent rfl rfl
